import Mathlib

/-!
Verification of the instalearn text-chunking engine and persistence layer.

The JavaScript sources are shallowly embedded over `Str := List Char`
(a JS string is a sequence of characters; we model the ASCII fragment of
the JS regex character classes, e.g. `\s` as `Char.isWhitespace`,
`[A-Z]` as `Char.isUpper`, `toUpperCase` as `Char.toUpper`).
Every definition is a direct translation of the corresponding function in
`src/utils/chunker.js`, `src/utils/textParser.js` or the storage module;
JS array/string idioms (`split`, `join`, `trim`, `replace`) are rendered
as structurally recursive list functions so that all definitions reduce
in the kernel.
-/

/-- A JS string, modelled as its character sequence. -/
abbrev Str := List Char

/-- Shorthand converting a Lean string literal to the `Str` model. -/
def str (s : String) : Str := s.data

/-- Whitespace test used throughout (models the ASCII core of JS `\s`). -/
def isWs (c : Char) : Bool := c.isWhitespace

/-- JS `text.split(sep)` for a single-character separator: splits at every
occurrence of `sep`, keeping empty fragments (so `"".split` is `[""]`). -/
def splitCh (sep : Char) : Str → List Str
  | [] => [[]]
  | c :: cs => if c = sep then [] :: splitCh sep cs else (splitCh sep cs).modifyHead (c :: ·)

/-- JS `parts.join(sep)` for a single-character separator. -/
def joinCh (sep : Char) : List Str → Str
  | [] => []
  | [w] => w
  | w :: x :: ws => w ++ sep :: joinCh sep (x :: ws)

/-- `l.dropWhile isWs`, the left half of JS `trim()`. -/
def trimL (l : Str) : Str := l.dropWhile isWs

/-- Drops trailing whitespace, the right half of JS `trim()`. -/
def trimR (l : Str) : Str := ((l.reverse.dropWhile isWs)).reverse

/-- JS `s.trim()`. -/
def trimBoth (l : Str) : Str := trimR (trimL l)

/-- JS `s.replace(/\s+/g, ' ')`: every whitespace run becomes one space.
The flag records whether we are inside a whitespace run already handled. -/
def collapseAux : Bool → Str → Str
  | _, [] => []
  | inRun, c :: cs =>
    if isWs c then
      if inRun then collapseAux true cs
      else ' ' :: collapseAux true cs
    else c :: collapseAux false cs

/-- JS `s.replace(/\s+/g, ' ').trim()` as used by the chunker before
sentence splitting. -/
def cleanStr (l : Str) : Str := trimBoth (collapseAux false l)

/-- The maximal whitespace-separated tokens of a string: `s.split(/\s+/)`
with empty fragments removed. -/
def tokens : Str → List Str
  | [] => []
  | [c] => if isWs c then [] else [[c]]
  | c :: d :: cs =>
    if isWs c then tokens (d :: cs)
    else if isWs d then [c] :: tokens (d :: cs)
    else (tokens (d :: cs)).modifyHead (c :: ·)

/-- `countWords` from chunker.js: number of non-empty tokens obtained by
splitting on whitespace runs (`text.split(/\s+/).filter(w => w.length > 0)`). -/
def countWords (text : Str) : Nat := (tokens text).length

/-- JS `text.replace(/\r\n/g, '\n')` (left-to-right, non-overlapping). -/
def normNL : Str → Str
  | [] => []
  | [c] => [c]
  | c :: d :: rest =>
    if c = '\r' ∧ d = '\n' then '\n' :: normNL rest
    else c :: normNL (d :: rest)

/-- The word-by-word abbreviation test of `splitIntoSentences`:
`/^(Mr|Mrs|Ms|Dr|Prof|Sr|Jr|vs|etc|i\.e|e\.g)\.$/`, an exact match. -/
def abbrevList : List Str :=
  [str "Mr.", str "Mrs.", str "Ms.", str "Dr.", str "Prof.", str "Sr.",
   str "Jr.", str "vs.", str "etc.", str "i.e.", str "e.g."]

/-- Decision taken by `splitIntoSentences` for the word `w` with following
word `next` (`none` when `w` is the last word): true exactly when the
current sentence is closed after `w`.  Mirrors
`isEndPunctuation && !isAbbreviation && (nextStartsWithCapital || last)`. -/
def isSentenceEnd (w : Str) (next : Option Str) : Bool :=
  let lastIsPunct := match w.getLast? with
    | some c => c = '.' || c = '!' || c = '?'
    | none => false
  let isAbbrev := abbrevList.contains w
  let nextStartsCapital := match next with
    | some (c :: _) => c.isUpper
    | _ => false
  lastIsPunct && !isAbbrev && (nextStartsCapital || next.isNone)

/-- Loop of `splitIntoSentences`: walk the words, extending `current`
(`current += (current ? ' ' : '') + word`) and closing a sentence when
`isSentenceEnd` fires; the trailing partial sentence is kept if nonempty. -/
def sentencesGo : List Str → Str → List Str
  | [], current => if trimBoth current = [] then [] else [trimBoth current]
  | w :: rest, current =>
    let current' := if current = [] then w else current ++ ' ' :: w
    if isSentenceEnd w rest.head? then trimBoth current' :: sentencesGo rest []
    else sentencesGo rest current'

/-- `splitIntoSentences` from chunker.js (the word-by-word heuristic;
the unused look-ahead regex in the source is dead code). -/
def splitIntoSentences (text : Str) : List Str :=
  sentencesGo (splitCh ' ' text) []

/-- `MAX_WORDS` from chunker.js. -/
def MAX_WORDS : Nat := 50

/-- The em-dash test in `splitLongSentence` as it literally appears in the
source: `w.endsWith('â€”')`, a three-character sequence (U+00E2 U+20AC
U+201D — the UTF-8 bytes of an em dash double-decoded), not U+2014. -/
def mojibakeEmDash : Str := ['â', '€', '”']

/-- Break-word test of `splitLongSentence`: ends with a comma, semicolon,
colon, the (mojibake) em-dash sequence, or a hyphen. -/
def isBreakWord (w : Str) : Bool :=
  [','].isSuffixOf w || [';'].isSuffixOf w || [':'].isSuffixOf w ||
    mojibakeEmDash.isSuffixOf w || ['-'].isSuffixOf w

/-- The backward scan of `splitLongSentence`: from the last index down to
`max(0, length - 10)`, the first (i.e. highest) index whose word ends in a
break character; defaults to the last index. -/
def findBreakIndex (cc : List Str) : Nat :=
  let hi := cc.length - 1
  let lo := cc.length - 10
  match ((List.range' lo (cc.length - lo)).reverse).find?
      (fun i => isBreakWord (cc.getD i [])) with
  | some i => i
  | none => hi

/-- Loop of `splitLongSentence`: accumulate words; upon reaching
`MAX_WORDS` words cut at the break index and continue with the remainder. -/
def splitLongGo : List Str → List Str → List Str
  | [], currentChunk =>
    if currentChunk = [] then [] else [joinCh ' ' currentChunk]
  | w :: rest, currentChunk =>
    let cc := currentChunk ++ [w]
    if MAX_WORDS ≤ cc.length then
      let bi := findBreakIndex cc
      joinCh ' ' (cc.take (bi + 1)) :: splitLongGo rest (cc.drop (bi + 1))
    else splitLongGo rest cc

/-- `splitLongSentence` from chunker.js. -/
def splitLongSentence (sentence : Str) : List Str :=
  (splitLongGo (splitCh ' ' sentence) []).filter (fun c => !(trimBoth c).isEmpty)

/-- Loop of `chunkSentences`: greedy packing of sentences into chunks of at
most `MAX_WORDS` words, hard-splitting over-length sentences. -/
def chunkSentencesGo : List Str → List Str → Nat → List Str
  | [], currentChunk, _ =>
    if currentChunk = [] then [] else [trimBoth (joinCh ' ' currentChunk)]
  | s :: rest, currentChunk, currentWordCount =>
    let sentenceWords := countWords s
    if MAX_WORDS < sentenceWords then
      (if currentChunk = [] then [] else [trimBoth (joinCh ' ' currentChunk)]) ++
        splitLongSentence s ++ chunkSentencesGo rest [] 0
    else if MAX_WORDS < currentWordCount + sentenceWords then
      (if currentChunk = [] then [] else [trimBoth (joinCh ' ' currentChunk)]) ++
        chunkSentencesGo rest [s] sentenceWords
    else chunkSentencesGo rest (currentChunk ++ [s]) (currentWordCount + sentenceWords)

/-- `chunkSentences` from chunker.js (final `filter(chunk => chunk.length > 0)`
included). -/
def chunkSentences (sentences : List Str) : List Str :=
  (chunkSentencesGo sentences [] 0).filter (fun c => !c.isEmpty)

/-- A chunk: its text and the optional section-header context. -/
structure Chunk where
  text : Str
  context : Option Str
deriving DecidableEq, Repr

/-- A section produced by the structural scan: optional header (absent for
leading content before any heading) and raw content. -/
structure TextSection where
  header : Option Str
  content : Str
deriving DecidableEq, Repr

/-- The per-line header test `line.match(/^(#{1,6})\s+(.+)$/)` of
`chunkByStructure`, returning the trimmed header text (`match[2].trim()`)
when the line matches: a full run of 1–6 `#`, then at least one whitespace
character, then at least one further character; the captured text trimmed
is the line after the hashes, trimmed. -/
def headerMatch (line : Str) : Option Str :=
  let hashes := line.takeWhile (· = '#')
  let rest := line.dropWhile (· = '#')
  if 1 ≤ hashes.length ∧ hashes.length ≤ 6 then
    match rest with
    | c :: _ :: _ => if isWs c then some (trimBoth rest) else none
    | _ => none
  else none

/-- Section-scan loop of `chunkByStructure`: a header line flushes the
current section (kept only when it accumulated at least one line) and
starts a new one; other lines accumulate. Content is
`currentContent.join('\n').trim()`. -/
def sectionsGo : List Str → Option Str → List Str → List TextSection
  | [], currentHeader, currentContent =>
    if currentContent = [] then []
    else [⟨currentHeader, trimBoth (joinCh '\n' currentContent)⟩]
  | line :: rest, currentHeader, currentContent =>
    match headerMatch line with
    | some h =>
      (if currentContent = [] then []
       else [⟨currentHeader, trimBoth (joinCh '\n' currentContent)⟩]) ++
        sectionsGo rest (some h) []
    | none => sectionsGo rest currentHeader (currentContent ++ [line])

/-- The sections of a text, per `chunkByStructure`. -/
def sectionsOf (text : Str) : List TextSection :=
  sectionsGo (splitCh '\n' text) none []

/-- The chunking applied to one section's content (or to the whole text on
the flat path): collapse whitespace, split into sentences, pack. -/
def chunkSection (content : Str) : List Str :=
  chunkSentences (splitIntoSentences (cleanStr content))

/-- `chunkByStructure` from chunker.js: chunk every section with non-empty
content and tag each chunk with the section's header. -/
def chunkByStructure (text : Str) : List Chunk :=
  (sectionsOf text).flatMap fun sec =>
    if sec.content = [] then []
    else (chunkSection sec.content).map fun t => ⟨t, sec.header⟩

/-- Matcher for `/^#{1,6}\s+.+/` continuing after the hashes: `\s+` then a
character matchable by `.` (anything except `\n` and `\r`).  Having consumed
one whitespace character, further `\n`/`\r` must be absorbed by `\s+`,
while any other character can be matched by `.`. -/
def afterWsDot : Str → Bool
  | [] => false
  | c :: cs => if c = '\n' ∨ c = '\r' then afterWsDot cs else true

/-- Whether `/^#{1,6}\s+.+/` matches at the start of `t`. -/
def matchHashHeader (t : Str) : Bool :=
  let hashes := t.takeWhile (· = '#')
  let rest := t.dropWhile (· = '#')
  decide (1 ≤ hashes.length ∧ hashes.length ≤ 6) &&
    match rest with
    | c :: cs => isWs c && afterWsDot cs
    | [] => false

/-- Multi-line scan `/^#{1,6}\s+.+/m.test(text)`: the pattern must match at
the start of the text or just after a line terminator (`\n` or `\r`). -/
def hasHeadersAux : Str → Bool → Bool
  | [], _ => false
  | c :: cs, atLineStart =>
    (atLineStart && matchHashHeader (c :: cs)) ||
      hasHeadersAux cs (c = '\n' || c = '\r')

/-- `hasHeaders` test of `chunkText`. -/
def hasHeaders (text : Str) : Bool := hasHeadersAux text true

/-- `chunkText` on an actual string (after the type guard): normalize line
endings, trim, then structural or flat chunking. -/
def chunkTextStr (text : Str) (structuralChunking : Bool) : List Chunk :=
  let normalizedText := trimBoth (normNL text)
  if normalizedText = [] then []
  else if structuralChunking && hasHeaders normalizedText then
    chunkByStructure normalizedText
  else (chunkSection normalizedText).map fun t => ⟨t, none⟩

/-- A JS value passed as the `text` argument of `chunkText`: `null` (or
`undefined`), a string, or any non-string value (number, object, ...). -/
inductive JSInput where
  | jsNull
  | jsStr (s : String)
  | jsOther
deriving DecidableEq, Repr

/-- `chunkText(text, {structuralChunking})` including its lenient guard
`if (!text || typeof text !== 'string') return []` — `null`, non-strings
and the (falsy) empty string all yield an empty chunk sequence. -/
def chunkText (input : JSInput) (structuralChunking : Bool) : List Chunk :=
  match input with
  | .jsNull => []
  | .jsOther => []
  | .jsStr s => if s = "" then [] else chunkTextStr s.data structuralChunking

/-- The statistics record returned by `getChunkStats`.  `totalWords` is an
`Option` because the source's empty-sequence object
`{totalChunks: 0, avgWords: 0, minWords: 0, maxWords: 0}` has no
`totalWords` field at all. -/
structure ChunkStats where
  totalChunks : Nat
  totalWords : Option Nat
  avgWords : Nat
  minWords : Nat
  maxWords : Nat
deriving DecidableEq, Repr

/-- JS `Math.round(tw / n)` for natural `tw` and positive `n` (exact
rational semantics; `Math.round` rounds half up). -/
def jsRoundDiv (tw n : Nat) : Nat := (2 * tw + n) / (2 * n)

/-- JS `Math.min(...xs)` over a nonempty list. -/
def listMin (x : Nat) (xs : List Nat) : Nat := xs.foldl min x

/-- JS `Math.max(...xs)` over a nonempty list. -/
def listMax (x : Nat) (xs : List Nat) : Nat := xs.foldl max x

/-- `getChunkStats` from chunker.js.  All chunks are `Chunk` records here,
so the duck-typed `getTextFromChunk` helper is simply `.text`. -/
def getChunkStats (chunks : List Chunk) : ChunkStats :=
  match chunks with
  | [] => ⟨0, none, 0, 0, 0⟩
  | c :: cs =>
    let wordCounts := (c :: cs).map fun ch => countWords ch.text
    let totalWords := wordCounts.foldl (· + ·) 0
    ⟨(c :: cs).length, some totalWords,
     jsRoundDiv totalWords (c :: cs).length,
     listMin (countWords c.text) (cs.map fun ch => countWords ch.text),
     listMax (countWords c.text) (cs.map fun ch => countWords ch.text)⟩

/-- Case-insensitive prefix strip (ASCII case folding), used to render the
case-insensitive anchored regexes of `detectHeadingPattern`; returns the
rest of the string after the prefix when it matches. -/
def stripPrefixCI : Str → Str → Option Str
  | [], l => some l
  | _ :: _, [] => none
  | p :: ps, c :: cs => if p.toLower = c.toLower then stripPrefixCI ps cs else none

/-- The character class `[\divxlc]` (with `/i`): a digit or a roman-numeral
letter in either case. -/
def chapterClass (c : Char) : Bool :=
  c.isDigit || c.toLower ∈ ['i', 'v', 'x', 'l', 'c']

/-- Pattern 1 of `detectHeadingPattern`: `/^chapter\s+[\divxlc]+/i`. -/
def matchChapter (t : Str) : Bool :=
  match stripPrefixCI (str "chapter") t with
  | some r =>
    (match r with
     | c :: _ => isWs c
     | [] => false) &&
      (match r.dropWhile isWs with
       | d :: _ => chapterClass d
       | [] => false)
  | none => false

/-- The character class `[\d.]`: a digit or a dot. -/
def sectionClass (c : Char) : Bool := c.isDigit || c = '.'

/-- Pattern 2a of `detectHeadingPattern`: `/^section\s+[\d.]+/i`. -/
def matchSection (t : Str) : Bool :=
  match stripPrefixCI (str "section") t with
  | some r =>
    (match r with
     | c :: _ => isWs c
     | [] => false) &&
      (match r.dropWhile isWs with
       | d :: _ => sectionClass d
       | [] => false)
  | none => false

/-- After `\s+` (one whitespace consumed), `\s*[A-Z]`: the first character
not absorbed as whitespace must be an upper-case letter. -/
def capAfterWs (cs : Str) : Bool :=
  match cs.dropWhile isWs with
  | d :: _ => d.isUpper
  | [] => false

mutual

/-- State of `/^\d+(\.\d+)*\s+[A-Z]/` having just consumed a digit: absorb
further digits, a `.`-digit group, or the mandatory whitespace before an
upper-case letter. -/
def outlineGo : Str → Bool
  | [] => false
  | c :: cs =>
    if c.isDigit then outlineGo cs
    else if c = '.' then outlineDot cs
    else if isWs c then capAfterWs cs
    else false

/-- State of `/^\d+(\.\d+)*\s+[A-Z]/` having just consumed a `.`: a digit
must follow to extend the dotted chain. -/
def outlineDot : Str → Bool
  | [] => false
  | c :: cs => if c.isDigit then outlineGo cs else false

end

/-- Pattern 2b of `detectHeadingPattern`: `/^\d+(\.\d+)*\s+[A-Z]/`
("1.2 Title"). -/
def matchOutline (t : Str) : Bool :=
  match t with
  | c :: cs => c.isDigit && outlineGo cs
  | [] => false

/-- The per-word test of pattern 3: `w === w.toUpperCase() && /[A-Z]/.test(w)`
— no lower-case letter, and at least one upper-case letter. -/
def allCapsWord (w : Str) : Bool :=
  decide (w = w.map Char.toUpper) && w.any Char.isUpper

/-- Pattern 3 of `detectHeadingPattern`: 2–8 whitespace-delimited words,
all upper-case (`trimmed.split(/\s+/)` on the already-trimmed line is
exactly `tokens`). -/
def matchAllCaps (t : Str) : Bool :=
  let words := tokens t
  decide (2 ≤ words.length ∧ words.length ≤ 8) && words.all allCapsWord

/-- The keyword alternation of pattern 4 (`acknowledgments?` reduces to the
prefix `acknowledgment` for an anchored prefix test). -/
def headingKeywords : List Str :=
  [str "introduction", str "conclusion", str "abstract", str "summary",
   str "overview", str "background", str "methodology", str "results",
   str "discussion", str "references", str "appendix", str "acknowledgment"]

/-- Pattern 4 of `detectHeadingPattern`:
`/^(introduction|conclusion|...|acknowledgments?)/i`. -/
def matchKeyword (t : Str) : Bool :=
  headingKeywords.any fun k => (stripPrefixCI k t).isSome

/-- The character class `[IVXLC]` with `/i`. -/
def isRomanCI (c : Char) : Bool := c.toLower ∈ ['i', 'v', 'x', 'l', 'c']

/-- The character class `[IVXLC]` without `/i` (upper case only). -/
def isRomanUpper (c : Char) : Bool := c ∈ ['I', 'V', 'X', 'L', 'C']

/-- After the dot of pattern 5: `\s+` then one letter (class parameter
distinguishes the code's `/i`-affected `[A-Z]` from the spec's capital). -/
def romanTail (letterClass : Char → Bool) : Str → Bool
  | c :: cs =>
    isWs c &&
      (match (c :: cs).dropWhile isWs with
       | d :: _ => letterClass d
       | [] => false)
  | [] => false

/-- Pattern 5 as the code has it: `/^[IVXLC]+\.\s+[A-Z]/i` — the `/i` flag
makes both the roman run and the final letter case-insensitive. -/
def matchRomanCI (t : Str) : Bool :=
  !(t.takeWhile isRomanCI).isEmpty &&
    (match t.dropWhile isRomanCI with
     | '.' :: rest => romanTail Char.isAlpha rest
     | _ => false)

/-- Pattern 5 as the spec words it: a leading roman numeral, then `.` and
whitespace, then a capital letter. -/
def matchRomanSpec (t : Str) : Bool :=
  !(t.takeWhile isRomanUpper).isEmpty &&
    (match t.dropWhile isRomanUpper with
     | '.' :: rest => romanTail Char.isUpper rest
     | _ => false)

/-- `detectHeadingPattern` from textParser.js: trims, rejects lines shorter
than two characters, then tries the five pattern groups in order. -/
def detectHeadingPattern (text : Str) : Bool :=
  let trimmed := trimBoth text
  if trimmed.length < 2 then false
  else if matchChapter trimmed then true
  else if matchSection trimmed then true
  else if matchOutline trimmed then true
  else if matchAllCaps trimmed then true
  else if matchKeyword trimmed then true
  else if matchRomanCI trimmed then true
  else false

/-- The heading-pattern heuristic exactly as the spec lists it: the
disjunction of the six listed patterns, with pattern 5 requiring a
capital letter after the roman numeral and its dot. -/
def specHeadingPattern (text : Str) : Bool :=
  let t := trimBoth text
  matchChapter t || matchSection t || matchOutline t || matchAllCaps t ||
    matchKeyword t || matchRomanSpec t

/-- The spec's pattern list amended at pattern 5 only: the roman-numeral
pattern is case-insensitive throughout (any ASCII letter may follow). -/
def specHeadingPatternAmended (text : Str) : Bool :=
  let t := trimBoth text
  matchChapter t || matchSection t || matchOutline t || matchAllCaps t ||
    matchKeyword t || matchRomanCI t

/-- A stored document (fields relevant to the persistence contract). -/
structure StoredDoc where
  id : String
  name : String
  totalChunks : Nat
deriving DecidableEq, Repr

/-- A stored bookmark.  Fresh `crypto.randomUUID()` identifiers are
modelled by a counter (`DBState.nextId`): the UUID contract is that a
generated id differs from every id already in the store. -/
structure Bookmark where
  id : Nat
  documentId : String
  chunkIndex : Nat
  text : String
deriving DecidableEq, Repr

/-- A stored reading-progress record, keyed by `documentId`. -/
structure ProgressRec where
  documentId : String
  currentIndex : Nat
deriving DecidableEq, Repr

/-- Explicit state for the IndexedDB stores of the storage module. -/
structure DBState where
  documents : List StoredDoc
  bookmarks : List Bookmark
  progress : List ProgressRec
  nextId : Nat
deriving DecidableEq, Repr

/-- IndexedDB `put` on the bookmarks store (keyPath `id`): replace the
record with the same key, or add the record. -/
def putBookmark (l : List Bookmark) (b : Bookmark) : List Bookmark :=
  if l.any (fun x => x.id = b.id) then l.map (fun x => if x.id = b.id then b else x)
  else l ++ [b]

/-- `getBookmarksByDocument(documentId)`: the `documentId` index lookup. -/
def getBookmarksByDocument (db : DBState) (documentId : String) : List Bookmark :=
  db.bookmarks.filter (fun b => b.documentId = documentId)

/-- `saveBookmark` without a caller-supplied id: a fresh id is generated and
the record is `put`; returns the new state and the stored bookmark. -/
def saveBookmark (db : DBState) (documentId : String) (chunkIndex : Nat)
    (text : String) : DBState × Bookmark :=
  let b : Bookmark := ⟨db.nextId, documentId, chunkIndex, text⟩
  ({ db with bookmarks := putBookmark db.bookmarks b, nextId := db.nextId + 1 }, b)

/-- `deleteBookmark(id)`. -/
def deleteBookmark (db : DBState) (id : Nat) : DBState :=
  { db with bookmarks := db.bookmarks.filter (fun b => ¬ b.id = id) }

/-- `toggleBookmark(documentId, chunkIndex, text)`: delete the first
bookmark of the document with this chunk index if one exists (returning
`added: false`), otherwise save a fresh one (returning `added: true`). -/
def toggleBookmark (db : DBState) (documentId : String) (chunkIndex : Nat)
    (text : String) : DBState × Bool :=
  match (getBookmarksByDocument db documentId).find?
      (fun b => b.chunkIndex = chunkIndex) with
  | some existing => (deleteBookmark db existing.id, false)
  | none => ((saveBookmark db documentId chunkIndex text).1, true)

/-- `deleteDocument(id)`: delete the document, then every bookmark of the
document (by its id), then the progress record keyed by the document id. -/
def deleteDocument (db : DBState) (id : String) : DBState :=
  let db1 := { db with documents := db.documents.filter (fun d => ¬ d.id = id) }
  let bms := getBookmarksByDocument db1 id
  let db2 := bms.foldl (fun d bm => deleteBookmark d bm.id) db1
  { db2 with progress := db2.progress.filter (fun p => ¬ p.documentId = id) }

/-- All bookmark ids in the store are below the fresh-id counter: the
freshness contract of `crypto.randomUUID()` in this model. -/
def FreshIds (db : DBState) : Prop :=
  ∀ b ∈ db.bookmarks, b.id < db.nextId

/-- A 51-word sentence whose 46th word ends in a genuine em dash
(U+2014), used to evaluate the hard split at the claimed break point. -/
def emDashSentenceWords : List Str :=
  List.replicate 45 ['a'] ++ [['a', '\u2014']] ++ List.replicate 5 ['a']

/-- The same sentence with the mojibake sequence the source actually
tests for in place of the em dash. -/
def mojibakeSentenceWords : List Str :=
  List.replicate 45 ['a'] ++ [['a'] ++ mojibakeEmDash] ++ List.replicate 5 ['a']

/-- The word-terminator test of the sentence splitter: the word ends in
`.`, `!` or `?`. -/
def endsInTerminator (w : Str) : Bool :=
  match w.getLast? with
  | some c => c = '.' || c = '!' || c = '?'
  | none => false

/-! ### Generic lemmas about the string utilities -/

/-- A word fit to appear in whitespace-collapsed text: nonempty and free
of whitespace characters. -/
def GoodWord (w : Str) : Prop := w ≠ [] ∧ ∀ c ∈ w, isWs c = false

/-- Every word of the list is good. -/
def GoodWords (ws : List Str) : Prop := ∀ w ∈ ws, GoodWord w

theorem goodWords_nil : GoodWords [] := by intro w hw; cases hw

theorem goodWords_cons {w : Str} {ws : List Str} (h1 : GoodWord w)
    (h2 : GoodWords ws) : GoodWords (w :: ws) := by
  intro x hx
  rcases List.mem_cons.mp hx with rfl | hx
  · exact h1
  · exact h2 _ hx

theorem goodWords_append {xs ys : List Str} (h1 : GoodWords xs)
    (h2 : GoodWords ys) : GoodWords (xs ++ ys) := by
  intro w hw
  rcases List.mem_append.mp hw with h | h
  · exact h1 _ h
  · exact h2 _ h

theorem splitCh_ne_nil (sep : Char) (l : Str) : splitCh sep l ≠ [] := by
  induction l with
  | nil => simp [splitCh]
  | cons c cs ih =>
    simp only [splitCh]
    split
    · simp
    · cases h : splitCh sep cs with
      | nil => exact absurd h ih
      | cons x xs => simp

theorem joinCh_cons_of_ne_nil (sep : Char) (w : Str) {ws : List Str}
    (h : ws ≠ []) : joinCh sep (w :: ws) = w ++ sep :: joinCh sep ws := by
  cases ws with
  | nil => exact absurd rfl h
  | cons x xs => rfl

theorem joinCh_modifyHead (sep c : Char) {S : List Str} (h : S ≠ []) :
    joinCh sep (S.modifyHead (c :: ·)) = c :: joinCh sep S := by
  cases S with
  | nil => exact absurd rfl h
  | cons s ss => cases ss <;> simp [joinCh]

theorem joinCh_splitCh (sep : Char) (l : Str) :
    joinCh sep (splitCh sep l) = l := by
  induction l with
  | nil => rfl
  | cons c cs ih =>
    simp only [splitCh]
    split
    · rename_i h
      rw [joinCh_cons_of_ne_nil sep [] (splitCh_ne_nil sep cs), ih, h]
      rfl
    · rw [joinCh_modifyHead sep c (splitCh_ne_nil sep cs), ih]

theorem splitCh_of_no_sep {sep : Char} {w : Str} (h : ∀ c ∈ w, c ≠ sep) :
    splitCh sep w = [w] := by
  induction w with
  | nil => rfl
  | cons c cs ih =>
    simp only [splitCh]
    rw [if_neg (h c (by simp))]
    rw [ih (fun x hx => h x (by simp [hx]))]
    rfl

theorem splitCh_append_sep {sep : Char} {w t : Str} (h : ∀ c ∈ w, c ≠ sep) :
    splitCh sep (w ++ sep :: t) = w :: splitCh sep t := by
  induction w with
  | nil => simp [splitCh]
  | cons c cs ih =>
    simp only [List.cons_append, splitCh, List.append_eq]
    rw [if_neg (h c (by simp))]
    rw [ih (fun x hx => h x (by simp [hx]))]
    rfl

theorem splitCh_joinCh {sep : Char} {ws : List Str} (hne : ws ≠ [])
    (h : ∀ w ∈ ws, ∀ c ∈ w, c ≠ sep) : splitCh sep (joinCh sep ws) = ws := by
  induction ws with
  | nil => exact absurd rfl hne
  | cons w rest ih =>
    cases rest with
    | nil => exact splitCh_of_no_sep (h w (by simp))
    | cons x xs =>
      rw [joinCh_cons_of_ne_nil sep w (by simp)]
      rw [splitCh_append_sep (h w (by simp))]
      rw [ih (by simp) (fun v hv => h v (by simp [hv]))]

theorem joinCh_ne_nil (sep : Char) {w : Str} {ws : List Str} (h : w ≠ []) :
    joinCh sep (w :: ws) ≠ [] := by
  cases ws with
  | nil => exact h
  | cons x xs => simp [joinCh]

theorem joinCh_append (sep : Char) {xs ys : List Str} (hx : xs ≠ [])
    (hy : ys ≠ []) :
    joinCh sep (xs ++ ys) = joinCh sep xs ++ sep :: joinCh sep ys := by
  induction xs with
  | nil => exact absurd rfl hx
  | cons w rest ih =>
    cases rest with
    | nil =>
      cases ys with
      | nil => exact absurd rfl hy
      | cons y yy => simp [joinCh]
    | cons x xx =>
      rw [List.cons_append, joinCh_cons_of_ne_nil sep w (by simp),
        joinCh_cons_of_ne_nil sep w (by simp), ih (by simp)]
      simp

theorem joinCh_flatten (sep : Char) {gs : List (List Str)}
    (h : ∀ g ∈ gs, g ≠ []) :
    joinCh sep (gs.map (joinCh sep)) = joinCh sep gs.flatten := by
  induction gs with
  | nil => rfl
  | cons g rest ih =>
    cases rest with
    | nil => simp [joinCh]
    | cons g2 gs2 =>
      have hg : g ≠ [] := h g (by simp)
      have hflat : (g2 :: gs2).flatten ≠ [] := by
        have hg2 : g2 ≠ [] := h g2 (by simp)
        cases g2 with
        | nil => exact absurd rfl hg2
        | cons a as => simp [List.flatten]
      have h1 : (g :: g2 :: gs2).flatten = g ++ (g2 :: gs2).flatten := rfl
      rw [List.map_cons, joinCh_cons_of_ne_nil sep _ (by simp),
        ih (fun x hx => h x (by simp [hx])), h1, joinCh_append sep hg hflat]

/-! ### Trim lemmas -/

theorem trimL_cons_ws {c : Char} (h : isWs c = true) (l : Str) :
    trimL (c :: l) = trimL l := by
  simp [trimL, List.dropWhile_cons, h]

theorem trimL_cons_not_ws {c : Char} (h : isWs c = false) (l : Str) :
    trimL (c :: l) = c :: l := by
  simp [trimL, List.dropWhile_cons, h]

theorem trimL_eq_nil {l : Str} (h : ∀ c ∈ l, isWs c = true) : trimL l = [] :=
  List.dropWhile_eq_nil_iff.mpr h

theorem trimL_eq_self {l : Str} (h : ∀ c, l.head? = some c → isWs c = false) :
    trimL l = l := by
  cases l with
  | nil => rfl
  | cons c cs => exact trimL_cons_not_ws (h c rfl) cs

theorem trimR_eq_nil {l : Str} (h : ∀ c ∈ l, isWs c = true) : trimR l = [] := by
  unfold trimR
  rw [List.dropWhile_eq_nil_iff.mpr (fun x hx => h x (List.mem_reverse.mp hx))]
  rfl

theorem trimR_eq_self {l : Str} (h : ∀ c, l.getLast? = some c → isWs c = false) :
    trimR l = l := by
  unfold trimR
  have hdrop : l.reverse.dropWhile isWs = l.reverse := by
    cases hl : l.reverse with
    | nil => simp
    | cons c cs =>
      have hc : l.getLast? = some c := by rw [← List.head?_reverse, hl]; rfl
      rw [List.dropWhile_cons, if_neg (by simp [h c hc])]
  rw [hdrop, List.reverse_reverse]

theorem trimR_append_ws {c : Char} (h : isWs c = true) (l : Str) :
    trimR (l ++ [c]) = trimR l := by
  unfold trimR
  rw [List.reverse_append]
  simp [List.dropWhile_cons, h]

theorem trimR_cons {c : Char} {l : Str} (h : trimR l ≠ []) :
    trimR (c :: l) = c :: trimR l := by
  unfold trimR at *
  rw [List.reverse_cons, List.dropWhile_append]
  have hne : ¬(l.reverse.dropWhile isWs).isEmpty := by
    intro hcon
    rw [List.isEmpty_iff] at hcon
    rw [hcon] at h
    exact h rfl
  rw [if_neg hne]
  simp

theorem trimR_decomp (l : Str) :
    ∃ t, l = trimR l ++ t ∧ ∀ c ∈ t, isWs c = true := by
  refine ⟨(l.reverse.takeWhile isWs).reverse, ?_, ?_⟩
  · have h1 : l.reverse.takeWhile isWs ++ l.reverse.dropWhile isWs = l.reverse :=
      @List.takeWhile_append_dropWhile _ isWs l.reverse
    unfold trimR
    calc l = l.reverse.reverse := (List.reverse_reverse l).symm
      _ = (l.reverse.takeWhile isWs ++ l.reverse.dropWhile isWs).reverse := by
          rw [h1]
      _ = (l.reverse.dropWhile isWs).reverse ++ (l.reverse.takeWhile isWs).reverse := by
          rw [List.reverse_append]
  · intro c hc
    rw [List.mem_reverse] at hc
    exact List.mem_takeWhile_imp hc

theorem trimBoth_eq_self {l : Str}
    (h1 : ∀ c, l.head? = some c → isWs c = false)
    (h2 : ∀ c, l.getLast? = some c → isWs c = false) : trimBoth l = l := by
  unfold trimBoth
  rw [trimL_eq_self h1, trimR_eq_self h2]

theorem trimBoth_eq_nil {l : Str} (h : ∀ c ∈ l, isWs c = true) :
    trimBoth l = [] := by
  unfold trimBoth
  rw [trimL_eq_nil h]
  rfl

/-! ### Head and last of joined word lists -/

theorem joinCh_head? (sep : Char) {w : Str} (ws : List Str) (hw : w ≠ []) :
    (joinCh sep (w :: ws)).head? = w.head? := by
  cases ws with
  | nil => rfl
  | cons x xs =>
    rw [joinCh_cons_of_ne_nil sep w (by simp)]
    exact List.head?_append_of_ne_nil _ hw

theorem joinCh_getLast_not_ws (sep : Char) :
    ∀ {ws : List Str}, GoodWords ws → ws ≠ [] →
      ∀ c, (joinCh sep ws).getLast? = some c → isWs c = false := by
  intro ws
  induction ws with
  | nil => intro _ h; exact absurd rfl h
  | cons w rest ih =>
    intro hgood _ c hc
    cases rest with
    | nil =>
      exact (hgood w (by simp)).2 c (List.mem_of_mem_getLast? hc)
    | cons x xs =>
      rw [joinCh_cons_of_ne_nil sep w (by simp), List.getLast?_append] at hc
      have hjoin : joinCh sep (x :: xs) ≠ [] :=
        joinCh_ne_nil sep (hgood x (by simp)).1
      have hlast : ∃ d, (joinCh sep (x :: xs)).getLast? = some d := by
        cases hl : (joinCh sep (x :: xs)).getLast? with
        | none => exact absurd (List.getLast?_eq_none_iff.mp hl) hjoin
        | some d => exact ⟨d, rfl⟩
      obtain ⟨d, hd⟩ := hlast
      have : (sep :: joinCh sep (x :: xs)).getLast? = some d := by
        rw [List.getLast?_cons, hd]
        rfl
      rw [this] at hc
      cases hc
      exact ih (fun v hv => hgood v (by simp [hv])) (by simp) c hd

theorem trimBoth_join_good {ws : List Str} (h : GoodWords ws) :
    trimBoth (joinCh ' ' ws) = joinCh ' ' ws := by
  cases ws with
  | nil => rfl
  | cons w rest =>
    apply trimBoth_eq_self
    · intro c hc
      rw [joinCh_head? ' ' rest (h w (by simp)).1] at hc
      exact (h w (by simp)).2 c (List.mem_of_mem_head? hc)
    · exact joinCh_getLast_not_ws ' ' h (by simp)

/-! ### Token lemmas -/

theorem tokens_ws_cons {c : Char} (h : isWs c = true) (l : Str) :
    tokens (c :: l) = tokens l := by
  cases l with
  | nil => simp [tokens, h]
  | cons d ds => simp [tokens, h]

theorem tokens_not_ws_cons_ws {c d : Char} (hc : isWs c = false)
    (hd : isWs d = true) (ds : Str) :
    tokens (c :: d :: ds) = [c] :: tokens (d :: ds) := by
  simp [tokens, hc, hd]

theorem tokens_not_ws_cons_not_ws {c d : Char} (hc : isWs c = false)
    (hd : isWs d = false) (ds : Str) :
    tokens (c :: d :: ds) = (tokens (d :: ds)).modifyHead (c :: ·) := by
  simp [tokens, hc, hd]

theorem tokens_trimL (l : Str) : tokens (trimL l) = tokens l := by
  induction l with
  | nil => rfl
  | cons c cs ih =>
    cases h : isWs c with
    | true => rw [trimL_cons_ws h, ih, tokens_ws_cons h]
    | false => rw [trimL_cons_not_ws h]

theorem tokens_cons_ne_nil :
    ∀ (cs : Str) (c : Char), isWs c = false → tokens (c :: cs) ≠ [] := by
  intro cs
  induction cs with
  | nil => intro c h; simp [tokens, h]
  | cons d ds ih =>
    intro c h
    cases hd : isWs d with
    | true => simp [tokens, h, hd]
    | false =>
      rw [tokens_not_ws_cons_not_ws h hd]
      cases hT : tokens (d :: ds) with
      | nil => exact absurd hT (ih d hd)
      | cons t ts => simp

theorem tokens_good (l : Str) : GoodWords (tokens l) := by
  induction l with
  | nil => exact goodWords_nil
  | cons c cs ih =>
    cases h : isWs c with
    | true => rw [tokens_ws_cons h]; exact ih
    | false =>
      cases cs with
      | nil =>
        have ht : tokens [c] = [[c]] := by simp [tokens, h]
        rw [ht]
        intro w hw
        rcases List.mem_singleton.mp hw with rfl
        exact ⟨by simp, fun x hx => by
          rcases List.mem_singleton.mp hx with rfl
          exact h⟩
      | cons d ds =>
        cases hd : isWs d with
        | true =>
          rw [tokens_not_ws_cons_ws h hd]
          apply goodWords_cons
          · exact ⟨by simp, fun x hx => by
              rcases List.mem_singleton.mp hx with rfl
              exact h⟩
          · exact ih
        | false =>
          rw [tokens_not_ws_cons_not_ws h hd]
          cases hT : tokens (d :: ds) with
          | nil => exact absurd hT (tokens_cons_ne_nil ds d hd)
          | cons t ts =>
            rw [hT] at ih
            simp only [List.modifyHead]
            apply goodWords_cons
            · refine ⟨by simp, fun x hx => ?_⟩
              rcases List.mem_cons.mp hx with rfl | hx
              · exact h
              · exact (ih t (by simp)).2 x hx
            · intro w hw
              exact ih w (by simp [hw])

theorem tokens_goodword : ∀ {w : Str}, GoodWord w → tokens w = [w] := by
  intro w
  induction w with
  | nil => intro h; exact absurd rfl h.1
  | cons c rest ih =>
    intro h
    have hc : isWs c = false := h.2 c (by simp)
    cases rest with
    | nil => simp [tokens, hc]
    | cons d ds =>
      have hd : isWs d = false := h.2 d (by simp)
      have ihr : tokens (d :: ds) = [d :: ds] :=
        ih ⟨by simp, fun x hx => h.2 x (by simp [hx])⟩
      rw [tokens_not_ws_cons_not_ws hc hd, ihr]
      rfl

theorem tokens_append_sep {w : Str} (hw : GoodWord w) (t : Str) :
    tokens (w ++ ' ' :: t) = w :: tokens t := by
  induction w with
  | nil => exact absurd rfl hw.1
  | cons c rest ih =>
    have hc : isWs c = false := hw.2 c (by simp)
    cases rest with
    | nil =>
      show tokens (c :: ' ' :: t) = [c] :: tokens t
      rw [tokens_not_ws_cons_ws hc (by rfl), tokens_ws_cons (by rfl)]
    | cons d ds =>
      have hd : isWs d = false := hw.2 d (by simp)
      have ihr := ih ⟨by simp, fun x hx => hw.2 x (by simp [hx])⟩
      show tokens (c :: (d :: ds ++ ' ' :: t)) = (c :: d :: ds) :: tokens t
      rw [show (d :: ds : Str) ++ ' ' :: t = d :: (ds ++ ' ' :: t) from rfl] at ihr
      rw [show ((d :: ds : Str) ++ ' ' :: t) = d :: (ds ++ ' ' :: t) from rfl]
      rw [tokens_not_ws_cons_not_ws hc hd, ihr]
      rfl

theorem tokens_join_good : ∀ {ws : List Str}, GoodWords ws →
    tokens (joinCh ' ' ws) = ws := by
  intro ws
  induction ws with
  | nil => intro _; rfl
  | cons w rest ih =>
    intro h
    cases rest with
    | nil => exact tokens_goodword (h w (by simp))
    | cons x xs =>
      rw [joinCh_cons_of_ne_nil ' ' w (by simp),
        tokens_append_sep (h w (by simp)),
        ih (fun v hv => h v (by simp [hv]))]

theorem countWords_join_good {ws : List Str} (h : GoodWords ws) :
    countWords (joinCh ' ' ws) = ws.length := by
  unfold countWords
  rw [tokens_join_good h]

theorem tokens_all_ws {l : Str} (h : ∀ c ∈ l, isWs c = true) : tokens l = [] := by
  induction l with
  | nil => rfl
  | cons c cs ih =>
    rw [tokens_ws_cons (h c (by simp)), ih (fun x hx => h x (by simp [hx]))]

theorem tokens_append_all_ws {t : Str} (ht : ∀ c ∈ t, isWs c = true) :
    ∀ l : Str, tokens (l ++ t) = tokens l := by
  intro l
  induction l with
  | nil => simpa using tokens_all_ws ht
  | cons c cs ih =>
    cases hc : isWs c with
    | true => rw [List.cons_append, tokens_ws_cons hc, ih, tokens_ws_cons hc]
    | false =>
      cases cs with
      | nil =>
        cases t with
        | nil => simp
        | cons d ds =>
          have hd : isWs d = true := ht d (by simp)
          show tokens (c :: d :: ds) = tokens [c]
          rw [tokens_not_ws_cons_ws hc hd, tokens_ws_cons hd,
            tokens_all_ws (fun x hx => ht x (by simp [hx]))]
          simp [tokens, hc]
      | cons d ds =>
        rw [show ((c :: d :: ds : Str) ++ t) = c :: ((d :: ds) ++ t) from rfl]
        rw [show ((d :: ds : Str) ++ t) = d :: (ds ++ t) from rfl]
        cases hd : isWs d with
        | true =>
          rw [tokens_not_ws_cons_ws hc hd, tokens_not_ws_cons_ws hc hd]
          rw [show (d :: (ds ++ t) : Str) = (d :: ds) ++ t from rfl, ih]
        | false =>
          rw [tokens_not_ws_cons_not_ws hc hd, tokens_not_ws_cons_not_ws hc hd]
          rw [show (d :: (ds ++ t) : Str) = (d :: ds) ++ t from rfl, ih]

theorem tokens_trimR (l : Str) : tokens (trimR l) = tokens l := by
  obtain ⟨t, hdec, hws⟩ := trimR_decomp l
  conv_rhs => rw [hdec]
  rw [tokens_append_all_ws hws]

theorem tokens_trimBoth (l : Str) : tokens (trimBoth l) = tokens l := by
  unfold trimBoth
  rw [tokens_trimR, tokens_trimL]

/-! ### Lemmas about line-ending normalization -/

theorem normNL_cr_nl (rest : Str) :
    normNL ('\r' :: '\n' :: rest) = '\n' :: normNL rest := by
  simp [normNL]

theorem normNL_cons₂ {c d : Char} (h : ¬(c = '\r' ∧ d = '\n')) (rest : Str) :
    normNL (c :: d :: rest) = c :: normNL (d :: rest) := by
  simp only [normNL, if_neg h]

theorem normNL_head (d : Char) (ds : Str) :
    ∃ e rest2, normNL (d :: ds) = e :: rest2 ∧ isWs e = isWs d := by
  cases ds with
  | nil => exact ⟨d, [], rfl, rfl⟩
  | cons e2 es =>
    by_cases h : d = '\r' ∧ e2 = '\n'
    · obtain ⟨rfl, rfl⟩ := h
      exact ⟨'\n', normNL es, normNL_cr_nl es, by decide⟩
    · exact ⟨d, normNL (e2 :: es), normNL_cons₂ h es, rfl⟩

theorem tokens_normNL (l : Str) : tokens (normNL l) = tokens l := by
  induction l with
  | nil => rfl
  | cons c rest ih =>
    cases rest with
    | nil => rfl
    | cons d ds =>
      by_cases hcd : c = '\r' ∧ d = '\n'
      · obtain ⟨rfl, rfl⟩ := hcd
        rw [normNL_cr_nl]
        have h2 : normNL ('\n' :: ds) = '\n' :: normNL ds := by
          cases ds with
          | nil => rfl
          | cons x xs => exact normNL_cons₂ (by simp) xs
        rw [h2] at ih
        rw [tokens_ws_cons (by decide)] at ih
        rw [tokens_ws_cons (by decide)] at ih
        rw [tokens_ws_cons (by decide), tokens_ws_cons (by decide),
          tokens_ws_cons (by decide)]
        exact ih
      · rw [normNL_cons₂ hcd]
        obtain ⟨e, rest2, he, hews⟩ := normNL_head d ds
        cases hcw : isWs c with
        | true =>
          rw [tokens_ws_cons hcw, tokens_ws_cons hcw]
          exact ih
        | false =>
          cases hdw : isWs d with
          | true =>
            rw [he]
            rw [tokens_not_ws_cons_ws hcw (hews.trans hdw)]
            rw [tokens_not_ws_cons_ws hcw hdw]
            rw [← he, ih]
          | false =>
            rw [he]
            rw [tokens_not_ws_cons_not_ws hcw (hews.trans hdw)]
            rw [tokens_not_ws_cons_not_ws hcw hdw]
            rw [← he, ih]

/-! ### The collapse identity: cleaning a string joins its tokens -/

theorem collapseAux_false_ws {c : Char} (h : isWs c = true) (cs : Str) :
    collapseAux false (c :: cs) = ' ' :: collapseAux true cs := by
  simp [collapseAux, h]

theorem collapseAux_cons_not_ws (b : Bool) {c : Char} (h : isWs c = false)
    (cs : Str) : collapseAux b (c :: cs) = c :: collapseAux false cs := by
  cases b <;> simp [collapseAux, h]

theorem collapseAux_true_eq (l : Str) :
    collapseAux true l = collapseAux false (trimL l) := by
  induction l with
  | nil => rfl
  | cons c cs ih =>
    cases h : isWs c with
    | true =>
      rw [trimL_cons_ws h]
      simp only [collapseAux, h]
      simpa using ih
    | false =>
      rw [trimL_cons_not_ws h]
      rw [collapseAux_cons_not_ws true h, collapseAux_cons_not_ws false h]

theorem joinCh_tokens_ne_nil {x : Str} (hx : tokens x ≠ []) :
    joinCh ' ' (tokens x) ≠ [] := by
  cases ht : tokens x with
  | nil => exact absurd ht hx
  | cons t ts =>
    exact joinCh_ne_nil ' ' (tokens_good x t (by rw [ht]; simp)).1

theorem clean_core :
    ∀ (n : Nat) (l : Str), l.length ≤ n →
      trimR (trimL (collapseAux false l)) = joinCh ' ' (tokens l) := by
  intro n
  induction n with
  | zero =>
    intro l hl
    rw [List.length_eq_zero.mp (Nat.le_zero.mp hl)]
    rfl
  | succ n ihn =>
    intro l hl
    cases l with
    | nil => rfl
    | cons c cs =>
      cases hc : isWs c with
      | true =>
        rw [collapseAux_false_ws hc, collapseAux_true_eq]
        rw [show trimL (' ' :: collapseAux false (trimL cs)) =
            trimL (collapseAux false (trimL cs)) from trimL_cons_ws (by decide) _]
        have hlen : (trimL cs).length ≤ n := by
          have h1 : (trimL cs).length ≤ cs.length :=
            List.Sublist.length_le (List.dropWhile_sublist _)
          have h2 : cs.length ≤ n := by
            simpa using Nat.lt_succ_iff.mp (lt_of_lt_of_le (by simp) hl)
          exact le_trans h1 h2
        rw [ihn (trimL cs) hlen]
        rw [tokens_ws_cons hc, ← tokens_trimL cs]
      | false =>
        rw [collapseAux_cons_not_ws false hc, trimL_cons_not_ws hc]
        cases cs with
        | nil =>
          have : trimR [c] = [c] := trimR_eq_self (fun x hx => by
            simp at hx
            rw [← hx]
            exact hc)
          rw [show collapseAux false [] = [] from rfl, this]
          simp [tokens, hc, joinCh]
        | cons d ds =>
          cases hd : isWs d with
          | true =>
            rw [collapseAux_false_ws hd, collapseAux_true_eq]
            rw [tokens_not_ws_cons_ws hc hd, tokens_ws_cons hd, ← tokens_trimL ds]
            have hzlen : (trimL ds).length ≤ n := by
              have h1 : (trimL ds).length ≤ ds.length :=
                List.Sublist.length_le (List.dropWhile_sublist _)
              have h2 : ds.length ≤ n := by
                have := hl
                simp only [List.length_cons] at this
                omega
              exact le_trans h1 h2
            have ihz := ihn (trimL ds) hzlen
            cases hzn : trimL ds with
            | nil =>
              rw [hzn] at ihz
              rw [show collapseAux false ([] : Str) = [] from rfl]
              rw [show tokens ([] : Str) = [] from rfl]
              rw [show ([c, ' '] : Str) = [c] ++ [' '] from rfl,
                trimR_append_ws (by decide)]
              have : trimR [c] = [c] := trimR_eq_self (fun x hx => by
                simp at hx
                rw [← hx]
                exact hc)
              rw [this]
              rfl
            | cons z0 zs =>
              have hz0 : isWs z0 = false := by
                have : (trimL ds).head? = some z0 := by rw [hzn]; rfl
                unfold trimL at this
                have hmem := List.head?_dropWhile_not isWs ds
                rw [this] at hmem
                simpa using hmem
              rw [hzn] at ihz
              rw [collapseAux_cons_not_ws false hz0] at ihz ⊢
              rw [trimL_cons_not_ws hz0] at ihz
              have htok_ne : tokens (z0 :: zs) ≠ [] := tokens_cons_ne_nil zs z0 hz0
              have hjoin_ne : joinCh ' ' (tokens (z0 :: zs)) ≠ [] :=
                joinCh_tokens_ne_nil htok_ne
              have htrimR_ne : trimR (z0 :: collapseAux false zs) ≠ [] := by
                rw [ihz]
                exact hjoin_ne
              rw [show (c :: ' ' :: z0 :: collapseAux false zs : Str) =
                  c :: (' ' :: z0 :: collapseAux false zs) from rfl]
              rw [trimR_cons (by
                rw [trimR_cons htrimR_ne]
                simp)]
              rw [trimR_cons htrimR_ne, ihz]
              rw [joinCh_cons_of_ne_nil ' ' [c] htok_ne]
              rfl
          | false =>
            rw [collapseAux_cons_not_ws false hd]
            rw [tokens_not_ws_cons_not_ws hc hd]
            have hlen2 : (d :: ds).length ≤ n := by
              simp only [List.length_cons] at hl ⊢
              omega
            have ih2 := ihn (d :: ds) hlen2
            rw [collapseAux_cons_not_ws false hd, trimL_cons_not_ws hd] at ih2
            have htok_ne : tokens (d :: ds) ≠ [] := tokens_cons_ne_nil ds d hd
            have hjoin_ne : joinCh ' ' (tokens (d :: ds)) ≠ [] :=
              joinCh_tokens_ne_nil htok_ne
            have htrimR_ne : trimR (d :: collapseAux false ds) ≠ [] := by
              rw [ih2]
              exact hjoin_ne
            rw [trimR_cons htrimR_ne, ih2]
            rw [joinCh_modifyHead ' ' c htok_ne]

theorem cleanStr_eq_join_tokens (l : Str) :
    cleanStr l = joinCh ' ' (tokens l) := by
  unfold cleanStr trimBoth
  exact clean_core l.length l (le_refl _)

/-! ### Sentence splitting partitions the words -/

theorem joinCh_append_singleton (sep : Char) {acc : List Str} (w : Str)
    (h : acc ≠ []) : joinCh sep (acc ++ [w]) = joinCh sep acc ++ sep :: w := by
  rw [joinCh_append sep h (by simp)]
  rfl

theorem sentencesGo_spec :
    ∀ (ws acc : List Str), GoodWords ws → GoodWords acc →
      ∃ groups : List (List Str),
        groups.flatten = acc ++ ws ∧
        (∀ g ∈ groups, g ≠ [] ∧ GoodWords g) ∧
        sentencesGo ws (joinCh ' ' acc) = groups.map (joinCh ' ') := by
  intro ws
  induction ws with
  | nil =>
    intro acc _ hacc
    cases acc with
    | nil => exact ⟨[], by simp, by simp, rfl⟩
    | cons a as =>
      refine ⟨[a :: as], by simp, ?_, ?_⟩
      · intro g hg
        rcases List.mem_singleton.mp hg with rfl
        exact ⟨by simp, hacc⟩
      · show (if trimBoth (joinCh ' ' (a :: as)) = [] then []
            else [trimBoth (joinCh ' ' (a :: as))]) = [joinCh ' ' (a :: as)]
        rw [trimBoth_join_good hacc,
          if_neg (joinCh_ne_nil ' ' (hacc a (by simp)).1)]
  | cons w rest ih =>
    intro acc hws hacc
    have hw : GoodWord w := hws w (by simp)
    have hrest : GoodWords rest := fun v hv => hws v (by simp [hv])
    have haccw : GoodWords (acc ++ [w]) :=
      goodWords_append hacc (goodWords_cons hw goodWords_nil)
    have hcur : (if joinCh ' ' acc = [] then w else joinCh ' ' acc ++ ' ' :: w) =
        joinCh ' ' (acc ++ [w]) := by
      cases acc with
      | nil => simp [joinCh]
      | cons a as =>
        rw [if_neg (joinCh_ne_nil ' ' (hacc a (by simp)).1),
          joinCh_append_singleton ' ' w (by simp)]
    have hunfold : sentencesGo (w :: rest) (joinCh ' ' acc) =
        if isSentenceEnd w rest.head?
        then trimBoth (joinCh ' ' (acc ++ [w])) :: sentencesGo rest []
        else sentencesGo rest (joinCh ' ' (acc ++ [w])) := by
      show (if isSentenceEnd w rest.head?
          then trimBoth (if joinCh ' ' acc = [] then w
              else joinCh ' ' acc ++ ' ' :: w) :: sentencesGo rest []
          else sentencesGo rest (if joinCh ' ' acc = [] then w
              else joinCh ' ' acc ++ ' ' :: w)) = _
      rw [hcur]
    cases hend : isSentenceEnd w rest.head? with
    | true =>
      rw [hend, if_pos rfl] at hunfold
      obtain ⟨groups', hflat', hgood', heq'⟩ := ih [] hrest goodWords_nil
      refine ⟨(acc ++ [w]) :: groups', ?_, ?_, ?_⟩
      · simp only [List.flatten_cons, hflat']
        simp
      · intro g hg
        rcases List.mem_cons.mp hg with rfl | hg
        · exact ⟨by simp, haccw⟩
        · exact hgood' g hg
      · rw [hunfold, trimBoth_join_good haccw]
        rw [show sentencesGo rest [] = sentencesGo rest (joinCh ' ' []) from rfl,
          heq']
        rfl
    | false =>
      rw [hend, if_neg (by simp)] at hunfold
      obtain ⟨groups', hflat', hgood', heq'⟩ := ih (acc ++ [w]) hrest haccw
      refine ⟨groups', ?_, hgood', by rw [hunfold, heq']⟩
      rw [hflat']
      simp

/-! ### Sentence splitting wrappers -/

theorem splitIntoSentences_nil : splitIntoSentences [] = [] := rfl

theorem splitIntoSentences_spec {ws : List Str} (h : GoodWords ws)
    (hne : ws ≠ []) :
    ∃ groups : List (List Str),
      groups.flatten = ws ∧
      (∀ g ∈ groups, g ≠ [] ∧ GoodWords g) ∧
      splitIntoSentences (joinCh ' ' ws) = groups.map (joinCh ' ') := by
  unfold splitIntoSentences
  rw [splitCh_joinCh hne (fun w hw c hc => by
    intro hcon
    have := (h w hw).2 c hc
    rw [hcon] at this
    exact absurd this (by decide))]
  simpa using sentencesGo_spec ws [] h goodWords_nil

/-! ### The hard split of over-length sentences -/

theorem findBreakIndex_bounds {cc : List Str} (h : cc ≠ []) :
    cc.length - 10 ≤ findBreakIndex cc ∧ findBreakIndex cc ≤ cc.length - 1 := by
  have hlen : 0 < cc.length := List.length_pos.mpr h
  cases hf : ((List.range' (cc.length - 10) (cc.length - (cc.length - 10))).reverse).find?
      (fun i => isBreakWord (cc.getD i [])) with
  | none =>
    have heqv : findBreakIndex cc = cc.length - 1 := by
      show (match ((List.range' (cc.length - 10) (cc.length - (cc.length - 10))).reverse).find?
          (fun i => isBreakWord (cc.getD i [])) with
        | some j => j
        | none => cc.length - 1) = cc.length - 1
      rw [hf]
    rw [heqv]
    exact ⟨by omega, le_refl _⟩
  | some i =>
    have heqv : findBreakIndex cc = i := by
      show (match ((List.range' (cc.length - 10) (cc.length - (cc.length - 10))).reverse).find?
          (fun i => isBreakWord (cc.getD i [])) with
        | some j => j
        | none => cc.length - 1) = i
      rw [hf]
    rw [heqv]
    have hmem := List.mem_of_find?_eq_some hf
    rw [List.mem_reverse, List.mem_range'_1] at hmem
    exact ⟨hmem.1, by omega⟩

theorem splitLongGo_spec :
    ∀ (rest acc : List Str), GoodWords rest → GoodWords acc →
      acc.length < MAX_WORDS →
      ∃ out : List (List Str),
        out.flatten = acc ++ rest ∧
        (∀ g ∈ out, g ≠ [] ∧ GoodWords g ∧ g.length ≤ MAX_WORDS) ∧
        splitLongGo rest acc = out.map (joinCh ' ') := by
  intro rest
  induction rest with
  | nil =>
    intro acc _ hacc hlen
    cases hac : acc with
    | nil => exact ⟨[], by simp, by simp, by simp [splitLongGo]⟩
    | cons a as =>
      subst hac
      refine ⟨[a :: as], by simp, ?_, by simp [splitLongGo]⟩
      intro g hg
      rcases List.mem_singleton.mp hg with rfl
      exact ⟨by simp, hacc, le_of_lt hlen⟩
  | cons w rest' ih =>
    intro acc hrest hacc hlen
    have hw : GoodWord w := hrest w (by simp)
    have hrest' : GoodWords rest' := fun v hv => hrest v (by simp [hv])
    have hcc : GoodWords (acc ++ [w]) :=
      goodWords_append hacc (goodWords_cons hw goodWords_nil)
    have hccl : (acc ++ [w]).length = acc.length + 1 := by simp
    have hunfold : splitLongGo (w :: rest') acc =
        if MAX_WORDS ≤ (acc ++ [w]).length then
          joinCh ' ' ((acc ++ [w]).take (findBreakIndex (acc ++ [w]) + 1)) ::
            splitLongGo rest' ((acc ++ [w]).drop (findBreakIndex (acc ++ [w]) + 1))
        else splitLongGo rest' (acc ++ [w]) := rfl
    by_cases hfull : MAX_WORDS ≤ (acc ++ [w]).length
    · have hlen50 : (acc ++ [w]).length = MAX_WORDS := by
        rw [hccl]
        rw [hccl] at hfull
        omega
      have hbnds := @findBreakIndex_bounds (acc ++ [w]) (by simp)
      set bi := findBreakIndex (acc ++ [w]) with hbi
      have hbi_le : bi ≤ MAX_WORDS - 1 := by
        have := hbnds.2
        rw [hlen50] at this
        exact this
      have hbi_ge : MAX_WORDS - 10 ≤ bi := by
        have := hbnds.1
        rw [hlen50] at this
        exact this
      have hdroplen : ((acc ++ [w]).drop (bi + 1)).length < MAX_WORDS := by
        rw [List.length_drop, hlen50]
        show MAX_WORDS - (bi + 1) < MAX_WORDS
        have : (0 : Nat) < MAX_WORDS := by decide
        omega
      have hdropgood : GoodWords ((acc ++ [w]).drop (bi + 1)) :=
        fun v hv => hcc v (List.mem_of_mem_drop hv)
      obtain ⟨out', hflat', hgood', heq'⟩ :=
        ih ((acc ++ [w]).drop (bi + 1)) hrest' hdropgood hdroplen
      refine ⟨(acc ++ [w]).take (bi + 1) :: out', ?_, ?_, ?_⟩
      · simp only [List.flatten_cons, hflat']
        rw [← List.append_assoc, List.take_append_drop]
        simp
      · intro g hg
        rcases List.mem_cons.mp hg with rfl | hg
        · refine ⟨?_, fun v hv => hcc v (List.mem_of_mem_take hv), ?_⟩
          · have : ((acc ++ [w]).take (bi + 1)).length = bi + 1 := by
              rw [List.length_take, hlen50]
              have h50 : (0:Nat) < MAX_WORDS := by decide
              omega
            intro hcon
            rw [hcon] at this
            simp at this
          · rw [List.length_take, hlen50]
            have h50 : (0:Nat) < MAX_WORDS := by decide
            omega
        · exact hgood' g hg
      · rw [hunfold, if_pos hfull, heq']
        rfl
    · rw [hccl] at hfull
      obtain ⟨out', hflat', hgood', heq'⟩ :=
        ih (acc ++ [w]) hrest' hcc (by rw [hccl]; omega)
      refine ⟨out', ?_, hgood', ?_⟩
      · rw [hflat']
        simp
      · rw [hunfold, if_neg (by rw [hccl]; omega), heq']

theorem splitLongSentence_spec {g : List Str} (hg : GoodWords g) (hne : g ≠ []) :
    ∃ out : List (List Str),
      out.flatten = g ∧
      (∀ p ∈ out, p ≠ [] ∧ GoodWords p ∧ p.length ≤ MAX_WORDS) ∧
      splitLongSentence (joinCh ' ' g) = out.map (joinCh ' ') := by
  unfold splitLongSentence
  rw [splitCh_joinCh hne (fun w hw c hc => by
    intro hcon
    have := (hg w hw).2 c hc
    rw [hcon] at this
    exact absurd this (by decide))]
  obtain ⟨out, hflat, hgood, heq⟩ :=
    splitLongGo_spec g [] hg goodWords_nil (by decide)
  refine ⟨out, by simpa using hflat, hgood, ?_⟩
  rw [heq]
  apply List.filter_eq_self.mpr
  intro x hx
  obtain ⟨p, hp, rfl⟩ := List.mem_map.mp hx
  have hjoin : trimBoth (joinCh ' ' p) = joinCh ' ' p :=
    trimBoth_join_good (hgood p hp).2.1
  have hpne : joinCh ' ' p ≠ [] := by
    cases hpp : p with
    | nil => exact absurd hpp (hgood p hp).1
    | cons a as =>
      have ha : GoodWord a := (hgood p hp).2.1 a (by rw [hpp]; simp)
      exact joinCh_ne_nil ' ' ha.1
  show (!(trimBoth (joinCh ' ' p)).isEmpty) = true
  rw [hjoin]
  cases hj : joinCh ' ' p with
  | nil => exact absurd hj hpne
  | cons y ys => rfl

/-! ### Greedy packing of sentences into bounded chunks -/

theorem goodWords_flatten {gs : List (List Str)} (h : ∀ g ∈ gs, GoodWords g) :
    GoodWords gs.flatten := by
  intro w hw
  obtain ⟨g, hg, hwg⟩ := List.mem_flatten.mp hw
  exact h g hg w hwg

theorem flush_eq {accs : List (List Str)} (h : ∀ g ∈ accs, g ≠ [] ∧ GoodWords g) :
    (if accs.map (joinCh ' ') = [] then []
     else [trimBoth (joinCh ' ' (accs.map (joinCh ' ')))]) =
    (if accs = [] then ([] : List (List Str)) else [accs.flatten]).map
      (joinCh ' ') := by
  cases accs with
  | nil => simp
  | cons a as =>
    rw [if_neg (by simp), if_neg (by simp)]
    rw [joinCh_flatten ' ' (fun g hg => (h g hg).1)]
    rw [trimBoth_join_good (goodWords_flatten (fun g hg => (h g hg).2))]
    rfl

theorem flush_flatten (accs : List (List Str)) :
    (if accs = [] then ([] : List (List Str)) else [accs.flatten]).flatten =
      accs.flatten := by
  cases accs <;> simp

theorem flush_good {accs : List (List Str)}
    (h : ∀ g ∈ accs, g ≠ [] ∧ GoodWords g)
    (hsum : (accs.map List.length).sum ≤ MAX_WORDS) :
    ∀ g ∈ (if accs = [] then ([] : List (List Str)) else [accs.flatten]),
      g ≠ [] ∧ GoodWords g ∧ g.length ≤ MAX_WORDS := by
  cases accs with
  | nil => simp
  | cons a as =>
    rw [if_neg (by simp)]
    intro g hg
    rcases List.mem_singleton.mp hg with rfl
    refine ⟨?_, goodWords_flatten (fun g hg => (h g hg).2), ?_⟩
    · have ha : a ≠ [] := (h a (by simp)).1
      cases haa : a with
      | nil => exact absurd haa ha
      | cons x xs => simp [List.flatten]
    · rw [List.length_flatten]
      exact hsum

theorem chunkSentencesGo_spec :
    ∀ (sgs accs : List (List Str)),
      (∀ g ∈ sgs, g ≠ [] ∧ GoodWords g) →
      (∀ g ∈ accs, g ≠ [] ∧ GoodWords g) →
      (accs.map List.length).sum ≤ MAX_WORDS →
      ∃ out : List (List Str),
        out.flatten = accs.flatten ++ sgs.flatten ∧
        (∀ g ∈ out, g ≠ [] ∧ GoodWords g ∧ g.length ≤ MAX_WORDS) ∧
        chunkSentencesGo (sgs.map (joinCh ' ')) (accs.map (joinCh ' '))
          ((accs.map List.length).sum) = out.map (joinCh ' ') := by
  intro sgs
  induction sgs with
  | nil =>
    intro accs _ haccs hsum
    refine ⟨if accs = [] then [] else [accs.flatten], ?_, flush_good haccs hsum, ?_⟩
    · rw [flush_flatten]
      simp
    · rw [show chunkSentencesGo ([].map (joinCh ' ')) (accs.map (joinCh ' '))
          ((accs.map List.length).sum) =
          (if accs.map (joinCh ' ') = [] then []
           else [trimBoth (joinCh ' ' (accs.map (joinCh ' ')))]) from rfl]
      exact flush_eq haccs
  | cons s sgs' ih =>
    intro accs hsgs haccs hsum
    have hs : s ≠ [] ∧ GoodWords s := hsgs s (by simp)
    have hsgs' : ∀ g ∈ sgs', g ≠ [] ∧ GoodWords g :=
      fun g hg => hsgs g (by simp [hg])
    have hcw : countWords (joinCh ' ' s) = s.length := countWords_join_good hs.2
    have hunfold : chunkSentencesGo ((s :: sgs').map (joinCh ' '))
        (accs.map (joinCh ' ')) ((accs.map List.length).sum) =
        if MAX_WORDS < s.length then
          (if accs.map (joinCh ' ') = [] then []
           else [trimBoth (joinCh ' ' (accs.map (joinCh ' ')))]) ++
            splitLongSentence (joinCh ' ' s) ++
            chunkSentencesGo (sgs'.map (joinCh ' ')) [] 0
        else if MAX_WORDS < (accs.map List.length).sum + s.length then
          (if accs.map (joinCh ' ') = [] then []
           else [trimBoth (joinCh ' ' (accs.map (joinCh ' ')))]) ++
            chunkSentencesGo (sgs'.map (joinCh ' ')) [joinCh ' ' s] s.length
        else chunkSentencesGo (sgs'.map (joinCh ' '))
          (accs.map (joinCh ' ') ++ [joinCh ' ' s])
          ((accs.map List.length).sum + s.length) := by
      show (if MAX_WORDS < countWords (joinCh ' ' s) then
          (if accs.map (joinCh ' ') = [] then []
           else [trimBoth (joinCh ' ' (accs.map (joinCh ' ')))]) ++
            splitLongSentence (joinCh ' ' s) ++
            chunkSentencesGo (sgs'.map (joinCh ' ')) [] 0
        else if MAX_WORDS < (accs.map List.length).sum +
            countWords (joinCh ' ' s) then
          (if accs.map (joinCh ' ') = [] then []
           else [trimBoth (joinCh ' ' (accs.map (joinCh ' ')))]) ++
            chunkSentencesGo (sgs'.map (joinCh ' ')) [joinCh ' ' s]
              (countWords (joinCh ' ' s))
        else chunkSentencesGo (sgs'.map (joinCh ' '))
          (accs.map (joinCh ' ') ++ [joinCh ' ' s])
          ((accs.map List.length).sum + countWords (joinCh ' ' s))) = _
      rw [hcw]
    by_cases h1 : MAX_WORDS < s.length
    · obtain ⟨out1, hf1, hg1, he1⟩ := splitLongSentence_spec hs.2 hs.1
      obtain ⟨out2, hf2, hg2, he2⟩ := ih [] hsgs' (by simp) (by
        show (List.map List.length ([] : List (List Str))).sum ≤ MAX_WORDS
        simp)
      rw [show List.map (joinCh ' ') ([] : List (List Str)) = [] from rfl,
        show (List.map List.length ([] : List (List Str))).sum = 0 from rfl]
        at he2
      refine ⟨(if accs = [] then [] else [accs.flatten]) ++ out1 ++ out2,
        ?_, ?_, ?_⟩
      · rw [List.flatten_append, List.flatten_append, flush_flatten, hf1, hf2]
        simp
      · intro g hg
        rcases List.mem_append.mp hg with hg | hg
        · rcases List.mem_append.mp hg with hg | hg
          · exact flush_good haccs hsum g hg
          · exact hg1 g hg
        · exact hg2 g hg
      · rw [hunfold, if_pos h1, flush_eq haccs, he1, he2]
        simp
    · by_cases h2 : MAX_WORDS < (accs.map List.length).sum + s.length
      · obtain ⟨out2, hf2, hg2, he2⟩ := ih [s] hsgs'
          (fun g hg => by
            rcases List.mem_singleton.mp hg with rfl
            exact hs)
          (by
            show (List.map List.length [s]).sum ≤ MAX_WORDS
            simp
            omega)
        rw [show List.map (joinCh ' ') [s] = [joinCh ' ' s] from rfl,
          show (List.map List.length [s]).sum = s.length from by simp] at he2
        refine ⟨(if accs = [] then [] else [accs.flatten]) ++ out2, ?_, ?_, ?_⟩
        · rw [List.flatten_append, flush_flatten, hf2]
          simp
        · intro g hg
          rcases List.mem_append.mp hg with hg | hg
          · exact flush_good haccs hsum g hg
          · exact hg2 g hg
        · rw [hunfold, if_neg h1, if_pos h2, flush_eq haccs, he2]
          simp
      · obtain ⟨out2, hf2, hg2, he2⟩ := ih (accs ++ [s]) hsgs'
          (fun g hg => by
            rcases List.mem_append.mp hg with hg | hg
            · exact haccs g hg
            · rcases List.mem_singleton.mp hg with rfl
              exact hs)
          (by
            rw [List.map_append, List.sum_append]
            simp
            omega)
        rw [show List.map (joinCh ' ') (accs ++ [s]) =
            accs.map (joinCh ' ') ++ [joinCh ' ' s] from by simp,
          show (List.map List.length (accs ++ [s])).sum =
            (accs.map List.length).sum + s.length from by simp] at he2
        refine ⟨out2, ?_, hg2, ?_⟩
        · rw [hf2]
          simp
        · rw [hunfold, if_neg h1, if_neg h2, he2]

/-! ### The full per-section pipeline -/

theorem filter_isEmpty_map_join {out : List (List Str)}
    (h : ∀ g ∈ out, g ≠ [] ∧ GoodWords g) :
    (out.map (joinCh ' ')).filter (fun c => !c.isEmpty) = out.map (joinCh ' ') := by
  apply List.filter_eq_self.mpr
  intro x hx
  obtain ⟨p, hp, rfl⟩ := List.mem_map.mp hx
  have hpne : joinCh ' ' p ≠ [] := by
    cases hpp : p with
    | nil => exact absurd hpp (h p hp).1
    | cons a as =>
      have ha : GoodWord a := (h p hp).2 a (by rw [hpp]; simp)
      exact joinCh_ne_nil ' ' ha.1
  cases hj : joinCh ' ' p with
  | nil => exact absurd hj hpne
  | cons y ys => rfl

theorem chunkSection_spec (content : Str) :
    ∃ out : List (List Str),
      out.flatten = tokens content ∧
      (∀ g ∈ out, g ≠ [] ∧ GoodWords g ∧ g.length ≤ MAX_WORDS) ∧
      chunkSection content = out.map (joinCh ' ') := by
  unfold chunkSection
  rw [cleanStr_eq_join_tokens]
  cases htok : tokens content with
  | nil =>
    refine ⟨[], by simp, by simp, ?_⟩
    rw [show joinCh ' ' ([] : List Str) = [] from rfl, splitIntoSentences_nil]
    rfl
  | cons t ts =>
    have hgood : GoodWords (t :: ts) := by
      rw [← htok]
      exact tokens_good content
    obtain ⟨groups, hgf, hgg, hge⟩ := splitIntoSentences_spec hgood (by simp)
    rw [hge]
    obtain ⟨out, hof, hog, hoe⟩ := chunkSentencesGo_spec groups [] hgg
      (by simp) (by
        show (List.map List.length ([] : List (List Str))).sum ≤ MAX_WORDS
        simp)
    rw [show List.map (joinCh ' ') ([] : List (List Str)) = [] from rfl,
      show (List.map List.length ([] : List (List Str))).sum = 0 from rfl] at hoe
    refine ⟨out, ?_, hog, ?_⟩
    · rw [hof, hgf]
      simp
    · unfold chunkSentences
      rw [hoe]
      exact filter_isEmpty_map_join (fun g hg => ⟨(hog g hg).1, (hog g hg).2.1⟩)

/-! ### Idempotence of trimming -/

theorem trimL_head_not_ws {l : Str} {c : Char} (h : (trimL l).head? = some c) :
    isWs c = false := by
  have hmem := List.head?_dropWhile_not isWs l
  unfold trimL at h
  rw [h] at hmem
  simpa using hmem

theorem trimL_idem (l : Str) : trimL (trimL l) = trimL l :=
  trimL_eq_self (fun _ hc => trimL_head_not_ws hc)

theorem trimR_idem (l : Str) : trimR (trimR l) = trimR l := by
  show trimR ((l.reverse.dropWhile isWs).reverse) = trimR l
  unfold trimR
  rw [List.reverse_reverse]
  have : (l.reverse.dropWhile isWs).dropWhile isWs = l.reverse.dropWhile isWs :=
    trimL_idem l.reverse
  rw [this]

theorem trimBoth_idem (l : Str) : trimBoth (trimBoth l) = trimBoth l := by
  unfold trimBoth
  have hLR : trimL (trimR (trimL l)) = trimR (trimL l) := by
    cases hr : trimR (trimL l) with
    | nil => rfl
    | cons c cs =>
      apply trimL_eq_self
      intro d hd
      obtain ⟨t, hdec, _⟩ := trimR_decomp (trimL l)
      have hne : trimR (trimL l) ≠ [] := by rw [hr]; simp
      have h1 : (trimL l).head? = (trimR (trimL l)).head? := by
        conv_lhs => rw [hdec]
        exact List.head?_append_of_ne_nil (trimR (trimL l)) hne
      rw [hr] at h1
      rw [← h1] at hd
      exact trimL_head_not_ws hd
  rw [hLR, trimR_idem]

/-! ### When no line is a Markdown heading -/

theorem sectionsGo_no_headers :
    ∀ (lines : List Str) (acc : List Str),
      (∀ line ∈ lines, headerMatch line = none) →
      sectionsGo lines none acc =
        if acc ++ lines = [] then []
        else [⟨none, trimBoth (joinCh '\n' (acc ++ lines))⟩] := by
  intro lines
  induction lines with
  | nil =>
    intro acc _
    show (if acc = [] then []
        else [(⟨none, trimBoth (joinCh '\n' acc)⟩ : TextSection)]) = _
    simp
  | cons line rest ih =>
    intro acc hl
    have hline : headerMatch line = none := hl line (by simp)
    have hstep : sectionsGo (line :: rest) none acc =
        sectionsGo rest none (acc ++ [line]) := by
      show (match headerMatch line with
        | some h =>
          (if acc = [] then []
           else [(⟨none, trimBoth (joinCh '\n' acc)⟩ : TextSection)]) ++
            sectionsGo rest (some h) []
        | none => sectionsGo rest none (acc ++ [line])) = _
      rw [hline]
    rw [hstep, ih (acc ++ [line]) (fun v hv => hl v (by simp [hv]))]
    rw [List.append_assoc]
    rfl

theorem chunkTextStr_def (text : Str) (b : Bool) :
    chunkTextStr text b =
      if trimBoth (normNL text) = [] then []
      else if b && hasHeaders (trimBoth (normNL text)) then
        chunkByStructure (trimBoth (normNL text))
      else (chunkSection (trimBoth (normNL text))).map fun t => ⟨t, none⟩ := rfl

theorem chunkTextStr_no_heading_lines (text : Str) (b : Bool)
    (h : ∀ line ∈ splitCh '\n' (trimBoth (normNL text)), headerMatch line = none) :
    chunkTextStr text b =
      (chunkSection (trimBoth (normNL text))).map fun t => ⟨t, none⟩ := by
  rw [chunkTextStr_def]
  by_cases hn : trimBoth (normNL text) = []
  · rw [if_pos hn, hn]
    rfl
  · rw [if_neg hn]
    by_cases hs : (b && hasHeaders (trimBoth (normNL text))) = true
    · rw [if_pos hs]
      unfold chunkByStructure sectionsOf
      rw [sectionsGo_no_headers (splitCh '\n' (trimBoth (normNL text))) [] (by
        intro line hline
        exact h line hline)]
      rw [if_neg (by simp [splitCh_ne_nil])]
      rw [show (([] : List Str) ++ splitCh '\n' (trimBoth (normNL text))) =
        splitCh '\n' (trimBoth (normNL text)) from by simp]
      rw [joinCh_splitCh, trimBoth_idem]
      rw [show ([⟨none, trimBoth (normNL text)⟩] :
          List TextSection).flatMap (fun sec =>
            if sec.content = [] then []
            else (chunkSection sec.content).map fun t =>
              (⟨t, sec.header⟩ : Chunk)) =
          if trimBoth (normNL text) = [] then []
          else (chunkSection (trimBoth (normNL text))).map fun t =>
            (⟨t, none⟩ : Chunk) from by simp [List.flatMap]]
      rw [if_neg hn]
    · rw [if_neg hs]

/-! ### Word-count bound and content preservation for the chunker -/

theorem chunkTextStr_wordcount (text : Str) (b : Bool) :
    ∀ c ∈ chunkTextStr text b, countWords c.text ≤ MAX_WORDS := by
  intro c hc
  rw [chunkTextStr_def] at hc
  by_cases hn : trimBoth (normNL text) = []
  · rw [if_pos hn] at hc
    cases hc
  · rw [if_neg hn] at hc
    by_cases hs : (b && hasHeaders (trimBoth (normNL text))) = true
    · rw [if_pos hs] at hc
      unfold chunkByStructure at hc
      obtain ⟨sec, _, hcm⟩ := List.mem_flatMap.mp hc
      by_cases hcon : sec.content = []
      · rw [if_pos hcon] at hcm
        cases hcm
      · rw [if_neg hcon] at hcm
        obtain ⟨t, ht, rfl⟩ := List.mem_map.mp hcm
        obtain ⟨out, _, hog, hoe⟩ := chunkSection_spec sec.content
        rw [hoe] at ht
        obtain ⟨g, hg, rfl⟩ := List.mem_map.mp ht
        show countWords (joinCh ' ' g) ≤ MAX_WORDS
        rw [countWords_join_good (hog g hg).2.1]
        exact (hog g hg).2.2
    · rw [if_neg hs] at hc
      obtain ⟨t, ht, rfl⟩ := List.mem_map.mp hc
      obtain ⟨out, _, hog, hoe⟩ := chunkSection_spec (trimBoth (normNL text))
      rw [hoe] at ht
      obtain ⟨g, hg, rfl⟩ := List.mem_map.mp ht
      show countWords (joinCh ' ' g) ≤ MAX_WORDS
      rw [countWords_join_good (hog g hg).2.1]
      exact (hog g hg).2.2

theorem chunkTextStr_concat (text : Str) (b : Bool)
    (h : ∀ line ∈ splitCh '\n' (trimBoth (normNL text)), headerMatch line = none) :
    cleanStr (joinCh ' ' ((chunkTextStr text b).map Chunk.text)) =
      cleanStr text := by
  rw [chunkTextStr_no_heading_lines text b h]
  obtain ⟨out, hof, hog, hoe⟩ := chunkSection_spec (trimBoth (normNL text))
  rw [hoe]
  rw [show ((out.map (joinCh ' ')).map (fun t => (⟨t, none⟩ : Chunk))).map
      Chunk.text = out.map (joinCh ' ') from by simp]
  rw [joinCh_flatten ' ' (fun g hg => (hog g hg).1), hof]
  rw [cleanStr_eq_join_tokens, cleanStr_eq_join_tokens]
  rw [tokens_join_good (tokens_good _)]
  rw [tokens_trimBoth, tokens_normNL]

/-! ### Whitespace-only input -/

theorem normNL_all_ws {l : Str} (h : ∀ c ∈ l, isWs c = true) :
    ∀ c ∈ normNL l, isWs c = true := by
  induction l with
  | nil => intro c hc; cases hc
  | cons c rest ih =>
    cases rest with
    | nil =>
      intro x hx
      rcases List.mem_singleton.mp hx with rfl
      exact h x (by simp)
    | cons d ds =>
      by_cases hcd : c = '\r' ∧ d = '\n'
      · obtain ⟨rfl, rfl⟩ := hcd
        rw [normNL_cr_nl]
        intro x hx
        rcases List.mem_cons.mp hx with rfl | hx
        · rfl
        · have h2 : normNL ('\n' :: ds) = '\n' :: normNL ds := by
            cases ds with
            | nil => rfl
            | cons y ys => exact normNL_cons₂ (by simp) ys
          exact ih (fun v hv => h v (by simp [hv])) x (by rw [h2]; simp [hx])
      · rw [normNL_cons₂ hcd]
        intro x hx
        rcases List.mem_cons.mp hx with rfl | hx
        · exact h x (by simp)
        · exact ih (fun v hv => h v (by simp [hv])) x hx

theorem chunkTextStr_ws_only {text : Str} (h : ∀ c ∈ text, isWs c = true) (b : Bool) :
    chunkTextStr text b = [] := by
  rw [chunkTextStr_def, if_pos (trimBoth_eq_nil (normNL_all_ws h))]

/-! ### Section headers and chunk contexts -/

theorem sectionsGo_nil_def (hdr : Option Str) (acc : List Str) :
    sectionsGo [] hdr acc =
      if acc = [] then [] else [⟨hdr, trimBoth (joinCh '\n' acc)⟩] := rfl

theorem sectionsGo_cons_def (line : Str) (rest : List Str) (hdr : Option Str)
    (acc : List Str) :
    sectionsGo (line :: rest) hdr acc =
      match headerMatch line with
      | some h =>
        (if acc = [] then []
         else [⟨hdr, trimBoth (joinCh '\n' acc)⟩]) ++ sectionsGo rest (some h) []
      | none => sectionsGo rest hdr (acc ++ [line]) := rfl

theorem sectionsGo_some_header :
    ∀ (lines : List Str) (h : Str) (acc : List Str),
      ∀ sec ∈ sectionsGo lines (some h) acc, sec.header ≠ none := by
  intro lines
  induction lines with
  | nil =>
    intro h acc sec hsec
    rw [sectionsGo_nil_def] at hsec
    by_cases hacc : acc = []
    · rw [if_pos hacc] at hsec
      cases hsec
    · rw [if_neg hacc] at hsec
      rcases List.mem_singleton.mp hsec with rfl
      simp
  | cons line rest ih =>
    intro h acc sec hsec
    rw [sectionsGo_cons_def] at hsec
    cases hm : headerMatch line with
    | none =>
      rw [hm] at hsec
      exact ih h (acc ++ [line]) sec hsec
    | some h2 =>
      rw [hm] at hsec
      rcases List.mem_append.mp hsec with hsec | hsec
      · by_cases hacc : acc = []
        · rw [if_pos hacc] at hsec
          cases hsec
        · rw [if_neg hacc] at hsec
          rcases List.mem_singleton.mp hsec with rfl
          simp
      · exact ih h2 [] sec hsec

theorem sectionsGo_none_structure :
    ∀ (lines : List Str) (acc : List Str),
      ∀ sec ∈ sectionsGo lines none acc, sec.header = none →
        (sectionsGo lines none acc).head? = some sec := by
  intro lines
  induction lines with
  | nil =>
    intro acc sec hsec _
    rw [sectionsGo_nil_def] at hsec ⊢
    by_cases hacc : acc = []
    · rw [if_pos hacc] at hsec
      cases hsec
    · rw [if_neg hacc] at hsec ⊢
      rcases List.mem_singleton.mp hsec with rfl
      rfl
  | cons line rest ih =>
    intro acc sec hsec hnone
    rw [sectionsGo_cons_def] at hsec ⊢
    cases hm : headerMatch line with
    | none =>
      rw [hm] at hsec
      exact ih (acc ++ [line]) sec hsec hnone
    | some h2 =>
      rw [hm] at hsec
      have hsec2 : sec ∈ (if acc = [] then []
          else [(⟨none, trimBoth (joinCh '\n' acc)⟩ : TextSection)]) ++
          sectionsGo rest (some h2) [] := hsec
      show ((if acc = [] then []
          else [(⟨none, trimBoth (joinCh '\n' acc)⟩ : TextSection)]) ++
          sectionsGo rest (some h2) []).head? = some sec
      rcases List.mem_append.mp hsec2 with hsec3 | hsec3
      · by_cases hacc : acc = []
        · rw [if_pos hacc] at hsec3
          cases hsec3
        · rw [if_neg hacc] at hsec3
          rcases List.mem_singleton.mp hsec3 with rfl
          rw [if_neg hacc]
          rfl
      · exact absurd hnone (sectionsGo_some_header rest h2 [] sec hsec3)

theorem chunkByStructure_context (text : Str) :
    ∀ c ∈ chunkByStructure text, ∃ sec ∈ sectionsOf text,
      c.context = sec.header ∧ c.text ∈ chunkSection sec.content ∧
      (c.context = none →
        (sectionsOf text).head? = some sec ∧ sec.header = none) := by
  intro c hc
  unfold chunkByStructure at hc
  obtain ⟨sec, hsec, hcm⟩ := List.mem_flatMap.mp hc
  by_cases hcon : sec.content = []
  · rw [if_pos hcon] at hcm
    cases hcm
  · rw [if_neg hcon] at hcm
    obtain ⟨t, ht, rfl⟩ := List.mem_map.mp hcm
    refine ⟨sec, hsec, rfl, ht, ?_⟩
    intro hnone
    have hnone' : sec.header = none := hnone
    exact ⟨sectionsGo_none_structure (splitCh '\n' text) [] sec hsec hnone',
      hnone'⟩

/-! ### Storage lemmas -/

theorem deleteBookmark_documents (db : DBState) (id : Nat) :
    (deleteBookmark db id).documents = db.documents := rfl

theorem deleteBookmark_progress (db : DBState) (id : Nat) :
    (deleteBookmark db id).progress = db.progress := rfl

theorem foldl_deleteBookmark_documents (bms : List Bookmark) :
    ∀ db : DBState,
      (bms.foldl (fun d bm => deleteBookmark d bm.id) db).documents =
        db.documents := by
  induction bms with
  | nil => intro db; rfl
  | cons bm bms' ih => intro db; exact ih (deleteBookmark db bm.id)

theorem foldl_deleteBookmark_progress (bms : List Bookmark) :
    ∀ db : DBState,
      (bms.foldl (fun d bm => deleteBookmark d bm.id) db).progress =
        db.progress := by
  induction bms with
  | nil => intro db; rfl
  | cons bm bms' ih => intro db; exact ih (deleteBookmark db bm.id)

theorem foldl_deleteBookmark_mem (bms : List Bookmark) :
    ∀ (db : DBState) (b : Bookmark),
      b ∈ (bms.foldl (fun d bm => deleteBookmark d bm.id) db).bookmarks →
        b ∈ db.bookmarks ∧ ∀ bm ∈ bms, ¬ b.id = bm.id := by
  induction bms with
  | nil =>
    intro db b hb
    exact ⟨hb, by intro bm hbm; cases hbm⟩
  | cons bm bms' ih =>
    intro db b hb
    obtain ⟨hb1, hb2⟩ := ih (deleteBookmark db bm.id) b hb
    unfold deleteBookmark at hb1
    simp only [List.mem_filter] at hb1
    refine ⟨hb1.1, ?_⟩
    intro x hx
    rcases List.mem_cons.mp hx with rfl | hx
    · simpa using hb1.2
    · exact hb2 x hx

/-- C10 support: the full cascade property of `deleteDocument`. -/
theorem deleteDocument_spec (db : DBState) (id : String) :
    (∀ d ∈ (deleteDocument db id).documents, ¬ d.id = id) ∧
    (∀ b ∈ (deleteDocument db id).bookmarks, ¬ b.documentId = id) ∧
    (∀ p ∈ (deleteDocument db id).progress, ¬ p.documentId = id) := by
  unfold deleteDocument
  refine ⟨?_, ?_, ?_⟩
  · intro d hd
    simp only at hd
    rw [foldl_deleteBookmark_documents] at hd
    simp only [List.mem_filter] at hd
    simpa using hd.2
  · intro b hb
    simp only at hb
    obtain ⟨hb1, hb2⟩ := foldl_deleteBookmark_mem _ _ b hb
    intro hcon
    have hmem : b ∈ getBookmarksByDocument
        { db with documents := db.documents.filter (fun d => ¬ d.id = id) } id := by
      unfold getBookmarksByDocument
      simp only [List.mem_filter]
      exact ⟨hb1, by simpa using hcon⟩
    exact hb2 b hmem rfl
  · intro p hp
    simp only [List.mem_filter] at hp
    simpa using hp.2

/-- C9: modelling the bookmark store as explicit state, from any state with
fresh ids and no bookmark for the (documentId, chunkIndex) pair, toggling
twice returns added = true then added = false, and afterwards the state
holds no bookmark for the pair. -/
theorem c9_toggle_bookmark_twice (db : DBState) (documentId : String)
    (chunkIndex : Nat) (text : String)
    (hfresh : FreshIds db)
    (hnone : ∀ b ∈ db.bookmarks,
      ¬(b.documentId = documentId ∧ b.chunkIndex = chunkIndex)) :
    (toggleBookmark db documentId chunkIndex text).2 = true ∧
    (toggleBookmark (toggleBookmark db documentId chunkIndex text).1
      documentId chunkIndex text).2 = false ∧
    ∀ b ∈ (toggleBookmark (toggleBookmark db documentId chunkIndex text).1
      documentId chunkIndex text).1.bookmarks,
      ¬(b.documentId = documentId ∧ b.chunkIndex = chunkIndex) := by
  have hfind1 : (getBookmarksByDocument db documentId).find?
      (fun b => b.chunkIndex = chunkIndex) = none := by
    apply List.find?_eq_none.mpr
    intro x hx
    unfold getBookmarksByDocument at hx
    simp only [List.mem_filter, decide_eq_true_eq] at hx
    simp only [decide_eq_true_eq]
    intro hcon
    exact hnone x hx.1 ⟨hx.2, hcon⟩
  have htog1 : toggleBookmark db documentId chunkIndex text =
      ((saveBookmark db documentId chunkIndex text).1, true) := by
    show (match (getBookmarksByDocument db documentId).find?
        (fun b => b.chunkIndex = chunkIndex) with
      | some existing => (deleteBookmark db existing.id, false)
      | none => ((saveBookmark db documentId chunkIndex text).1, true)) = _
    rw [hfind1]
  have hbm1 : (saveBookmark db documentId chunkIndex text).1.bookmarks =
      db.bookmarks ++ [⟨db.nextId, documentId, chunkIndex, text⟩] := by
    show putBookmark db.bookmarks ⟨db.nextId, documentId, chunkIndex, text⟩ =
      db.bookmarks ++ [⟨db.nextId, documentId, chunkIndex, text⟩]
    unfold putBookmark
    rw [if_neg]
    intro hcon
    rw [List.any_eq_true] at hcon
    obtain ⟨x, hx, hxid⟩ := hcon
    simp only [decide_eq_true_eq] at hxid
    have := hfresh x hx
    rw [hxid] at this
    exact absurd this (by simp)
  have hfind2 : (getBookmarksByDocument
      (saveBookmark db documentId chunkIndex text).1 documentId).find?
      (fun b => b.chunkIndex = chunkIndex) =
      some ⟨db.nextId, documentId, chunkIndex, text⟩ := by
    unfold getBookmarksByDocument
    rw [show (saveBookmark db documentId chunkIndex text).1.bookmarks =
      db.bookmarks ++ [⟨db.nextId, documentId, chunkIndex, text⟩] from hbm1]
    rw [List.filter_append, List.find?_append]
    have h1 : db.bookmarks.filter
        (fun b => b.documentId = documentId) =
        getBookmarksByDocument db documentId := rfl
    rw [h1, hfind1]
    simp [List.filter, List.find?]
  have htog2 : toggleBookmark (saveBookmark db documentId chunkIndex text).1
      documentId chunkIndex text =
      (deleteBookmark (saveBookmark db documentId chunkIndex text).1
        db.nextId, false) := by
    show (match (getBookmarksByDocument
        (saveBookmark db documentId chunkIndex text).1 documentId).find?
        (fun b => b.chunkIndex = chunkIndex) with
      | some existing =>
        (deleteBookmark (saveBookmark db documentId chunkIndex text).1
          existing.id, false)
      | none => ((saveBookmark (saveBookmark db documentId chunkIndex text).1
          documentId chunkIndex text).1, true)) = _
    rw [hfind2]
  refine ⟨by rw [htog1], by rw [htog1]; rw [htog2], ?_⟩
  intro b hb
  rw [htog1] at hb
  simp only at hb
  rw [htog2] at hb
  simp only at hb
  unfold deleteBookmark at hb
  simp only [List.mem_filter, decide_eq_true_eq] at hb
  rw [hbm1] at hb
  obtain ⟨hbmem, hbid⟩ := hb
  rcases List.mem_append.mp hbmem with hbm | hbm
  · exact hnone b hbm
  · rcases List.mem_singleton.mp hbm with rfl
    exact absurd rfl hbid

/-! ### Heading-pattern equivalence -/

theorem stripPrefixCI_length :
    ∀ (ps l r : Str), stripPrefixCI ps l = some r →
      l.length = ps.length + r.length := by
  intro ps
  induction ps with
  | nil =>
    intro l r h
    simp only [stripPrefixCI] at h
    cases h
    simp
  | cons p ps' ih =>
    intro l r h
    cases l with
    | nil => cases h
    | cons c cs =>
      simp only [stripPrefixCI] at h
      by_cases hc : p.toLower = c.toLower
      · rw [if_pos hc] at h
        have := ih cs r h
        simp [this]
        omega
      · rw [if_neg hc] at h
        cases h

theorem stripPrefixCI_single {ps : Str} {c : Char} (h : 2 ≤ ps.length) :
    stripPrefixCI ps [c] = none := by
  cases hs : stripPrefixCI ps [c] with
  | none => rfl
  | some r =>
    have := stripPrefixCI_length ps [c] r hs
    simp at this
    omega

theorem matchChapter_single (c : Char) : matchChapter [c] = false := by
  unfold matchChapter
  rw [stripPrefixCI_single (by decide)]

theorem matchSection_single (c : Char) : matchSection [c] = false := by
  unfold matchSection
  rw [stripPrefixCI_single (by decide)]

theorem matchOutline_single (c : Char) : matchOutline [c] = false := by
  unfold matchOutline
  simp [outlineGo]

theorem matchAllCaps_single (c : Char) : matchAllCaps [c] = false := by
  unfold matchAllCaps
  cases h : isWs c <;> simp [tokens, h]

theorem matchKeyword_single (c : Char) : matchKeyword [c] = false := by
  unfold matchKeyword
  rw [List.any_eq_false]
  intro k hk
  have hlen : 2 ≤ k.length := by
    simp only [headingKeywords, List.mem_cons, List.not_mem_nil,
      or_false] at hk
    rcases hk with rfl | rfl | rfl | rfl | rfl | rfl | rfl | rfl | rfl |
      rfl | rfl | rfl <;> decide
  rw [stripPrefixCI_single hlen]
  simp

theorem matchRomanCI_single (c : Char) : matchRomanCI [c] = false := by
  unfold matchRomanCI
  cases h : isRomanCI c <;>
    simp [List.takeWhile_cons, List.dropWhile_cons, h, List.takeWhile_nil,
      List.dropWhile_nil]

theorem detectHeadingPattern_def (textArg : Str) :
    detectHeadingPattern textArg =
      if (trimBoth textArg).length < 2 then false
      else if matchChapter (trimBoth textArg) then true
      else if matchSection (trimBoth textArg) then true
      else if matchOutline (trimBoth textArg) then true
      else if matchAllCaps (trimBoth textArg) then true
      else if matchKeyword (trimBoth textArg) then true
      else if matchRomanCI (trimBoth textArg) then true
      else false := rfl

theorem specHeadingPatternAmended_def (textArg : Str) :
    specHeadingPatternAmended textArg =
      (matchChapter (trimBoth textArg) || matchSection (trimBoth textArg) ||
        matchOutline (trimBoth textArg) || matchAllCaps (trimBoth textArg) ||
        matchKeyword (trimBoth textArg) || matchRomanCI (trimBoth textArg)) := rfl

theorem detect_eq_amended (l : Str) :
    detectHeadingPattern l = specHeadingPatternAmended l := by
  rw [detectHeadingPattern_def, specHeadingPatternAmended_def]
  by_cases hlen : (trimBoth l).length < 2
  · rw [if_pos hlen]
    have hshort : trimBoth l = [] ∨ ∃ c, trimBoth l = [c] := by
      cases ht : trimBoth l with
      | nil => exact Or.inl rfl
      | cons c cs =>
        cases cs with
        | nil => exact Or.inr ⟨c, rfl⟩
        | cons d ds =>
          rw [ht] at hlen
          exact absurd hlen (by simp)
    rcases hshort with ht | ⟨c, ht⟩ <;> rw [ht]
    · decide
    · rw [matchChapter_single, matchSection_single, matchOutline_single,
        matchAllCaps_single, matchKeyword_single, matchRomanCI_single]
      rfl
  · rw [if_neg hlen]
    cases h1 : matchChapter (trimBoth l) <;>
      cases h2 : matchSection (trimBoth l) <;>
      cases h3 : matchOutline (trimBoth l) <;>
      cases h4 : matchAllCaps (trimBoth l) <;>
      cases h5 : matchKeyword (trimBoth l) <;>
      cases h6 : matchRomanCI (trimBoth l) <;>
      simp [h1, h2, h3, h4, h5, h6]

/-! ### Statistics lemmas -/

theorem foldl_add_eq_sum (l : List Nat) : ∀ a, l.foldl (· + ·) a = a + l.sum := by
  induction l with
  | nil => intro a; simp
  | cons x xs ih =>
    intro a
    show xs.foldl (· + ·) (a + x) = a + (x :: xs).sum
    rw [ih (a + x), List.sum_cons]
    omega

theorem listMin_mem (xs : List Nat) : ∀ x, listMin x xs ∈ x :: xs := by
  unfold listMin
  induction xs with
  | nil => intro x; simp
  | cons y ys ih =>
    intro x
    have h := ih (min x y)
    show List.foldl min (min x y) ys ∈ x :: y :: ys
    rcases List.mem_cons.mp h with heq | hmem
    · rw [heq]
      have hxy : min x y = x ∨ min x y = y := by omega
      rcases hxy with h' | h' <;> rw [h'] <;> simp
    · simp [hmem]

theorem listMin_le_init (xs : List Nat) : ∀ x, listMin x xs ≤ x := by
  unfold listMin
  induction xs with
  | nil => intro x; simp
  | cons z zs ih =>
    intro x
    show List.foldl min (min x z) zs ≤ x
    exact le_trans (ih (min x z)) (by omega)

theorem listMin_le_mem (xs : List Nat) : ∀ x, ∀ y ∈ xs, listMin x xs ≤ y := by
  induction xs with
  | nil => intro x y hy; cases hy
  | cons z zs ih =>
    intro x y hy
    show List.foldl min (min x z) zs ≤ y
    rcases List.mem_cons.mp hy with h' | hy2
    · have h1 : listMin (min x z) zs ≤ min x z := listMin_le_init zs _
      rw [h']
      exact le_trans h1 (by omega)
    · exact ih (min x z) y hy2

theorem listMax_mem (xs : List Nat) : ∀ x, listMax x xs ∈ x :: xs := by
  unfold listMax
  induction xs with
  | nil => intro x; simp
  | cons y ys ih =>
    intro x
    have h := ih (max x y)
    show List.foldl max (max x y) ys ∈ x :: y :: ys
    rcases List.mem_cons.mp h with heq | hmem
    · rw [heq]
      have hxy : max x y = x ∨ max x y = y := by omega
      rcases hxy with h' | h' <;> rw [h'] <;> simp
    · simp [hmem]

theorem listMax_ge_init (xs : List Nat) : ∀ x, x ≤ listMax x xs := by
  unfold listMax
  induction xs with
  | nil => intro x; simp
  | cons z zs ih =>
    intro x
    show x ≤ List.foldl max (max x z) zs
    exact le_trans (by omega) (ih (max x z))

theorem listMax_ge_mem (xs : List Nat) : ∀ x, ∀ y ∈ xs, y ≤ listMax x xs := by
  induction xs with
  | nil => intro x y hy; cases hy
  | cons z zs ih =>
    intro x y hy
    show y ≤ List.foldl max (max x z) zs
    rcases List.mem_cons.mp hy with h' | hy2
    · have h1 : max x z ≤ listMax (max x z) zs := listMax_ge_init zs _
      rw [h']
      exact le_trans (by omega) h1
    · exact ih (max x z) y hy2

theorem jsRoundDiv_bounds (tw n : Nat) (hn : 0 < n) :
    2 * n * jsRoundDiv tw n ≤ 2 * tw + n ∧
      2 * tw + n < 2 * n * (jsRoundDiv tw n + 1) := by
  unfold jsRoundDiv
  constructor
  · exact Nat.mul_div_le (2 * tw + n) (2 * n)
  · have hstep : 2 * tw + n <
        2 * n * ((2 * tw + n) / (2 * n)) + 2 * n := by
      conv_lhs => rw [← Nat.div_add_mod (2 * tw + n) (2 * n)]
      have h3 : (2 * tw + n) % (2 * n) < 2 * n := Nat.mod_lt _ (by omega)
      omega
    rw [Nat.mul_add, Nat.mul_one]
    exact hstep

theorem chunkText_jsStr (s : String) (b : Bool) :
    chunkText (.jsStr s) b = if s = "" then [] else chunkTextStr s.data b := rfl

/-! ## Claim theorems -/

/-- C1: for every input value and every options value, every chunk in the
sequence returned by `chunkText` has a word count (non-empty tokens split
on whitespace runs) of at most 50, including chunks produced by
hard-splitting a single over-length sentence. -/
theorem c1_chunk_wordcount_bound (input : JSInput) (structural : Bool) :
    ∀ c ∈ chunkText input structural, countWords c.text ≤ MAX_WORDS := by
  intro c hc
  cases input with
  | jsNull => cases hc
  | jsOther => cases hc
  | jsStr s =>
    rw [chunkText_jsStr] at hc
    by_cases hs : s = ""
    · rw [if_pos hs] at hc
      cases hc
    · rw [if_neg hs] at hc
      exact chunkTextStr_wordcount s.data structural c hc

/-- Witness for C1: the bound evaluated at a concrete input and chunk. -/
theorem c1_chunk_wordcount_bound_witness :
    countWords (str "Hello world. This is a test.") ≤ MAX_WORDS :=
  c1_chunk_wordcount_bound (.jsStr "Hello world. This is a test.") true
    ⟨str "Hello world. This is a test.", none⟩ (by decide)

/-- C2: for every input string containing no Markdown heading line (no line
matches the heading pattern), concatenating the text fields of the chunks
returned by `chunkText` in order, with a single separating space, and
collapsing whitespace runs to single spaces yields exactly the input text
with its whitespace runs collapsed to single spaces and trimmed. -/
theorem c2_content_preserving (s : String) (structural : Bool)
    (h : ∀ line ∈ splitCh '\n' (trimBoth (normNL s.data)),
      headerMatch line = none) :
    cleanStr (joinCh ' ' ((chunkText (.jsStr s) structural).map Chunk.text)) =
      cleanStr s.data := by
  rw [chunkText_jsStr]
  by_cases hs : s = ""
  · rw [if_pos hs, hs]
    rfl
  · rw [if_neg hs]
    exact chunkTextStr_concat s.data structural h

/-- Witness for C2 at a concrete heading-free input. -/
theorem c2_content_preserving_witness :
    cleanStr (joinCh ' '
      ((chunkText (.jsStr "a   b\n c") true).map Chunk.text)) =
      cleanStr (str "a   b\n c") :=
  c2_content_preserving "a   b\n c" true (by decide)

/-- C4 (code evaluation at the failing input): a 51-word sentence whose
46th word ends in a genuine em dash (U+2014) is hard-split exactly at word
50 — the em-dash word is NOT chosen as the cut point, because the source
compares word endings against the mojibake sequence `'â€”'` rather than an
em dash; the same sentence with the mojibake sequence in place of the em
dash is cut at word 46, as the claim describes for an em dash. -/
theorem c4_emdash_not_breakpoint :
    (splitLongSentence (joinCh ' ' emDashSentenceWords)).map countWords =
      [50, 1] ∧
    (splitLongSentence (joinCh ' ' mojibakeSentenceWords)).map countWords =
      [46, 5] := by
  constructor
  · rfl
  · rfl

/-- C7: `chunkText` applied to null, to a non-string value, or to the empty
string returns an empty chunk sequence rather than failing, and
whitespace-only input also yields an empty chunk sequence. -/
theorem c7_lenient_empty (structural : Bool) :
    chunkText .jsNull structural = [] ∧
    chunkText (.jsStr "") structural = [] ∧
    chunkText .jsOther structural = [] ∧
    ∀ s : String, s.data.all isWs = true →
      chunkText (.jsStr s) structural = [] := by
  refine ⟨rfl, rfl, rfl, ?_⟩
  intro s hs
  rw [chunkText_jsStr]
  by_cases he : s = ""
  · rw [if_pos he]
  · rw [if_neg he]
    exact chunkTextStr_ws_only
      (fun c hc => List.all_eq_true.mp hs c hc) structural

/-- Witness for C7 at a concrete whitespace-only input. -/
theorem c7_lenient_empty_witness : chunkText (.jsStr " \t ") true = [] :=
  (c7_lenient_empty true).2.2.2 " \t " (by decide)

/-- C3 counterexample: on input with structural chunking enabled and a
Markdown heading present, the chunk built from the leading content before
the first heading carries no context, so a chunk's context can be absent
even though heading structure exists in the input. -/
theorem c3_context_cex :
    hasHeaders (trimBoth (normNL (str "hello\n# H\nworld"))) = true ∧
    chunkText (.jsStr "hello\n# H\nworld") true =
      [⟨str "hello", none⟩, ⟨str "world", some (str "H")⟩] := by
  constructor
  · decide
  · decide

/-- C3 (amended): with structural chunking enabled and a heading present,
every chunk's context is the header of the section enclosing the chunk's
content, and a chunk's context is absent only when the chunk comes from
the leading, headerless section of content before any heading line. -/
theorem c3_context_section_header (s : String)
    (hh : hasHeaders (trimBoth (normNL s.data)) = true) :
    ∀ c ∈ chunkText (.jsStr s) true,
      ∃ sec ∈ sectionsOf (trimBoth (normNL s.data)),
        c.context = sec.header ∧ c.text ∈ chunkSection sec.content ∧
        (c.context = none →
          (sectionsOf (trimBoth (normNL s.data))).head? = some sec ∧
            sec.header = none) := by
  intro c hc
  rw [chunkText_jsStr] at hc
  by_cases hs : s = ""
  · rw [if_pos hs] at hc
    cases hc
  · rw [if_neg hs] at hc
    rw [chunkTextStr_def] at hc
    by_cases hn : trimBoth (normNL s.data) = []
    · rw [if_pos hn] at hc
      cases hc
    · rw [if_neg hn] at hc
      rw [hh] at hc
      simp only [Bool.true_and, if_true] at hc
      exact chunkByStructure_context (trimBoth (normNL s.data)) c hc

/-- Witness for C3 at a concrete input and chunk. -/
theorem c3_context_section_header_witness :
    ∃ sec ∈ sectionsOf (trimBoth (normNL (str "hello\n# H\nworld"))),
      (Chunk.mk (str "world") (some (str "H"))).context = sec.header ∧
      (Chunk.mk (str "world") (some (str "H"))).text ∈
        chunkSection sec.content ∧
      ((Chunk.mk (str "world") (some (str "H"))).context = none →
        (sectionsOf (trimBoth (normNL
          (str "hello\n# H\nworld")))).head? = some sec ∧
          sec.header = none) :=
  c3_context_section_header "hello\n# H\nworld" (by decide)
    ⟨str "world", some (str "H")⟩ (by decide)

theorem isSentenceEnd_def (w : Str) (next : Option Str) :
    isSentenceEnd w next =
      ((match w.getLast? with
        | some c => c = '.' || c = '!' || c = '?'
        | none => false) &&
        !(abbrevList.contains w) &&
        ((match next with
          | some (c :: _) => c.isUpper
          | _ => false) || next.isNone)) := rfl

/-- C5: sentence splitting of "Dr. Smith arrived. He left." yields exactly
the two sentences "Dr. Smith arrived." and "He left."; a word that is a
recognized abbreviation never ends a sentence; and a non-abbreviation word
ending in '.', '!' or '?' ends the sentence exactly when it is the last
word or the next word starts with an upper-case letter. -/
theorem c5_sentence_split_abbrev :
    splitIntoSentences (str "Dr. Smith arrived. He left.") =
      [str "Dr. Smith arrived.", str "He left."] ∧
    (∀ (w : Str) (next : Option Str), w ∈ abbrevList →
      isSentenceEnd w next = false) ∧
    (∀ (w : Str) (next : Option Str), endsInTerminator w = true →
      w ∉ abbrevList →
      (isSentenceEnd w next = true ↔
        next = none ∨ ∃ c cs, next = some (c :: cs) ∧ c.isUpper = true)) := by
  refine ⟨by decide, ?_, ?_⟩
  · intro w next hw
    have hc : abbrevList.contains w = true := List.elem_eq_true_of_mem hw
    rw [isSentenceEnd_def, hc]
    simp
  · intro w next hterm hnab
    have hc : abbrevList.contains w = false := by
      cases hcc : abbrevList.contains w
      · rfl
      · exact absurd (List.mem_of_elem_eq_true hcc) hnab
    have hterm2 : (match w.getLast? with
      | some c => c = '.' || c = '!' || c = '?'
      | none => false) = true := hterm
    rw [isSentenceEnd_def, hc, hterm2]
    cases next with
    | none => simp
    | some nx =>
      cases nx with
      | nil => simp
      | cons c cs => simp

/-- Witness for C5 at concrete words. -/
theorem c5_sentence_split_abbrev_witness :
    isSentenceEnd (str "Dr.") (some (str "Smith")) = false :=
  c5_sentence_split_abbrev.2.1 (str "Dr.") (some (str "Smith")) (by decide)

/-- C6 counterexample: the line "ii. the" is classified as a heading
pattern by the code (the `/i` flag makes `[A-Z]` match any letter and the
roman run lower-case), but matches none of the spec's listed patterns —
in particular the roman-numeral pattern requires a capital letter. -/
theorem c6_heading_pattern_cex :
    detectHeadingPattern (str "ii. the") = true ∧
    specHeadingPattern (str "ii. the") = false := by
  constructor
  · decide
  · decide

/-- C6 (amended): the code's heading-pattern heuristic classifies a line
as a heading pattern if and only if it matches one of the spec's listed
patterns, with pattern 5 amended to be case-insensitive throughout: a
leading roman-numeral run in either case, a dot, whitespace, and an ASCII
letter in either case. -/
theorem c6_heading_pattern_equiv (line : Str) :
    detectHeadingPattern line = specHeadingPatternAmended line :=
  detect_eq_amended line

/-- C8 counterexample: the statistics object for the empty sequence is
`{totalChunks: 0, avgWords: 0, minWords: 0, maxWords: 0}` with NO
totalWords field at all (modelled as `none`), so the empty sequence does
not report a zero total word count. -/
theorem c8_stats_empty_cex :
    getChunkStats [] = ⟨0, none, 0, 0, 0⟩ ∧
    (getChunkStats []).totalWords ≠ some 0 := by
  constructor
  · rfl
  · decide

/-- C8 (amended): `getChunkStats` on the empty sequence returns zeros for
totalChunks, avgWords, minWords and maxWords with the totalWords field
absent, without error; on a non-empty sequence it reports the chunk count,
the total word count, the mean word count rounded to the nearest integer
(halves rounded up), the minimum word count and the maximum word count —
computing the mean without dividing by zero. -/
theorem c8_stats_spec :
    getChunkStats [] = ⟨0, none, 0, 0, 0⟩ ∧
    ∀ (c : Chunk) (cs : List Chunk),
      (getChunkStats (c :: cs)).totalChunks = (c :: cs).length ∧
      (getChunkStats (c :: cs)).totalWords =
        some (((c :: cs).map fun ch => countWords ch.text).sum) ∧
      (getChunkStats (c :: cs)).minWords ∈
        ((c :: cs).map fun ch => countWords ch.text) ∧
      (getChunkStats (c :: cs)).maxWords ∈
        ((c :: cs).map fun ch => countWords ch.text) ∧
      (∀ n ∈ (c :: cs).map fun ch => countWords ch.text,
        (getChunkStats (c :: cs)).minWords ≤ n ∧
          n ≤ (getChunkStats (c :: cs)).maxWords) ∧
      2 * (c :: cs).length * (getChunkStats (c :: cs)).avgWords ≤
        2 * ((c :: cs).map fun ch => countWords ch.text).sum +
          (c :: cs).length ∧
      2 * ((c :: cs).map fun ch => countWords ch.text).sum +
          (c :: cs).length <
        2 * (c :: cs).length * ((getChunkStats (c :: cs)).avgWords + 1) := by
  refine ⟨rfl, ?_⟩
  intro c cs
  have htw : (getChunkStats (c :: cs)).totalWords =
      some (((c :: cs).map fun ch => countWords ch.text).sum) := by
    show some (((c :: cs).map fun ch => countWords ch.text).foldl (· + ·) 0) =
      some (((c :: cs).map fun ch => countWords ch.text).sum)
    rw [foldl_add_eq_sum]
    simp
  have hmin : (getChunkStats (c :: cs)).minWords =
      listMin (countWords c.text) (cs.map fun ch => countWords ch.text) := rfl
  have hmax : (getChunkStats (c :: cs)).maxWords =
      listMax (countWords c.text) (cs.map fun ch => countWords ch.text) := rfl
  have havg : (getChunkStats (c :: cs)).avgWords =
      jsRoundDiv (((c :: cs).map fun ch => countWords ch.text).foldl (· + ·) 0)
        (c :: cs).length := rfl
  have havg2 : (getChunkStats (c :: cs)).avgWords =
      jsRoundDiv (((c :: cs).map fun ch => countWords ch.text).sum)
        (c :: cs).length := by
    rw [havg, foldl_add_eq_sum]
    simp
  have hlenpos : 0 < (c :: cs).length := by simp
  have hbnds := jsRoundDiv_bounds
    (((c :: cs).map fun ch => countWords ch.text).sum) (c :: cs).length hlenpos
  refine ⟨rfl, htw, ?_, ?_, ?_, ?_, ?_⟩
  · rw [hmin]
    exact listMin_mem (cs.map fun ch => countWords ch.text) (countWords c.text)
  · rw [hmax]
    exact listMax_mem (cs.map fun ch => countWords ch.text) (countWords c.text)
  · intro n hn
    rcases List.mem_cons.mp hn with heq | hn2
    · constructor
      · rw [hmin, heq]
        exact listMin_le_init (cs.map fun ch => countWords ch.text)
          (countWords c.text)
      · rw [hmax, heq]
        exact listMax_ge_init (cs.map fun ch => countWords ch.text)
          (countWords c.text)
    · constructor
      · rw [hmin]
        exact listMin_le_mem (cs.map fun ch => countWords ch.text)
          (countWords c.text) n hn2
      · rw [hmax]
        exact listMax_ge_mem (cs.map fun ch => countWords ch.text)
          (countWords c.text) n hn2
  · rw [havg2]
    exact hbnds.1
  · rw [havg2]
    exact hbnds.2

/-- Witness for C8 at a concrete chunk list. -/
theorem c8_stats_spec_witness :
    (getChunkStats [⟨str "a b", none⟩]).minWords ≤ countWords (str "a b") :=
  ((c8_stats_spec.2 ⟨str "a b", none⟩ []).2.2.2.2.1
    (countWords (str "a b")) (by decide)).1

/-- C10 (implicit): modelling the persistence stores as explicit state,
after `deleteDocument id` completes the state contains no document with
that id, no bookmark whose documentId equals that id, and no
reading-progress entry keyed by that id — deleting a document cascades to
its bookmarks and progress. -/
theorem c10_delete_document_cascades (db : DBState) (id : String) :
    ((deleteDocument db id).documents.all fun d => !(d.id == id)) = true ∧
    ((deleteDocument db id).bookmarks.all fun b => !(b.documentId == id)) =
      true ∧
    ((deleteDocument db id).progress.all fun p => !(p.documentId == id)) =
      true := by
  obtain ⟨h1, h2, h3⟩ := deleteDocument_spec db id
  refine ⟨?_, ?_, ?_⟩
  · apply List.all_eq_true.mpr
    intro d hd
    simpa using h1 d hd
  · apply List.all_eq_true.mpr
    intro b hb
    simpa using h2 b hb
  · apply List.all_eq_true.mpr
    intro p hp
    simpa using h3 p hp

/-- Witness for C9 at a concrete database state. -/
theorem c9_toggle_bookmark_twice_witness :
    (toggleBookmark
      (⟨[], [⟨0, "other", 3, "t"⟩], [], 1⟩ : DBState) "doc" 2 "txt").2 =
      true :=
  (c9_toggle_bookmark_twice ⟨[], [⟨0, "other", 3, "t"⟩], [], 1⟩ "doc" 2 "txt"
    (by
      intro b hb
      rcases List.mem_singleton.mp hb with rfl
      decide)
    (by
      intro b hb
      rcases List.mem_singleton.mp hb with rfl
      decide)).1
